import Mathlib

/-!
# Verification of the guppy project/dependency discovery pipeline

Shallow embedding of `src/services/read-from-disk.service.js` (the
project/dependency discovery and aggregation pipeline) and proofs about it.

Modelling conventions:

* The filesystem is a value (`FSState`): each path is mapped to a read outcome
  (content string, or an error code such as `"ENOENT"`), a stat outcome, and a
  write outcome.  All reads performed by the pipeline go through it.
* A promise fulfils, rejects, or never settles, so promise-returning functions
  are modelled as the three-valued `POutcome`; the leaf helpers whose promise
  always settles (`loadIcon`, `loadProjectFSStat`, `writePackageJson`) keep
  `Except JsErr`.
* Every `JSON.parse` call of this module sits inside an `fs.readFile`
  callback.  A throw there is not caught by the promise executor (which has
  long returned), so the exception is uncaught and the promise **never
  settles**: a parse failure is modelled as `.pending`, not as a rejection.
* A member access on `null` (`packageJson.dependencies` after the descriptor
  parsed to JSON `null`) throws a `TypeError`; thrown inside a promise
  executor, it rejects that promise.
* JSON texts are modelled with a real character-level serializer
  (`JSON.stringify(v, null, 2)`) and parser (`JSON.parse`), with JSON numbers
  restricted to integers (the decimal shortest-round-trip behaviour of JS
  numbers is captured by the integer fragment).
* `async/map` runs one task per input element and collects results **by input
  index**; completion order is modelled explicitly as a schedule (the list of
  task indices in completion order), so that order-(in)dependence is provable.
-/

namespace Guppy

/-! ## JSON values -/

/-- A JSON value.  Numbers are modelled as integers (see module docstring). -/
inductive Json where
  | null : Json
  | bool (b : Bool) : Json
  | num (n : Int) : Json
  | str (s : String) : Json
  | arr (elems : List Json) : Json
  | obj (fields : List (String × Json)) : Json
  deriving Repr

mutual

def Json.beq : Json → Json → Bool
  | .null, .null => true
  | .bool a, .bool b => a == b
  | .num a, .num b => a == b
  | .str a, .str b => a == b
  | .arr as, .arr bs => Json.beqList as bs
  | .obj afs, .obj bfs => Json.beqFields afs bfs
  | _, _ => false

def Json.beqList : List Json → List Json → Bool
  | [], [] => true
  | a :: as, b :: bs => Json.beq a b && Json.beqList as bs
  | _, _ => false

def Json.beqFields : List (String × Json) → List (String × Json) → Bool
  | [], [] => true
  | (ka, va) :: as, (kb, vb) :: bs => ka == kb && Json.beq va vb && Json.beqFields as bs
  | _, _ => false

end

mutual

theorem Json.beq_iff : ∀ (a b : Json), Json.beq a b = true ↔ a = b
  | .null, b => by cases b <;> simp [Json.beq]
  | .bool x, b => by cases b <;> simp [Json.beq]
  | .num n, b => by cases b <;> simp [Json.beq]
  | .str s, b => by cases b <;> simp [Json.beq]
  | .arr as, b => by
    cases b <;> simp [Json.beq]
    exact Json.beqList_iff as _
  | .obj afs, b => by
    cases b <;> simp [Json.beq]
    exact Json.beqFields_iff afs _

theorem Json.beqList_iff : ∀ (as bs : List Json), Json.beqList as bs = true ↔ as = bs
  | [], bs => by cases bs <;> simp [Json.beqList]
  | a :: as, bs => by
    cases bs with
    | nil => simp [Json.beqList]
    | cons b bs =>
      simp [Json.beqList, Json.beq_iff a b, Json.beqList_iff as bs]

theorem Json.beqFields_iff : ∀ (as bs : List (String × Json)),
    Json.beqFields as bs = true ↔ as = bs
  | [], bs => by cases bs <;> simp [Json.beqFields]
  | (ka, va) :: as, bs => by
    cases bs with
    | nil => simp [Json.beqFields]
    | cons b bs =>
      obtain ⟨kb, vb⟩ := b
      simp [Json.beqFields, Json.beq_iff va vb, Json.beqFields_iff as bs, and_assoc]

end

instance : DecidableEq Json := fun a b => decidable_of_iff _ (Json.beq_iff a b)

/-! ## Association lists with JavaScript object-update semantics -/

/-- JavaScript object property update: overwrite in place if the key exists
(keeping its position), otherwise append.  This is the semantics of
`{...map, [key]: value}` folds and of repeated property assignment. -/
def upsert {α : Type} : List (String × α) → String → α → List (String × α)
  | [], k, v => [(k, v)]
  | (k', v') :: rest, k, v =>
    if k' = k then (k, v) :: rest else (k', v') :: upsert rest k v

/-- JavaScript property lookup on an object represented as an ordered
association list (first binding wins; lists built by `upsert` have no
duplicate keys). -/
def getKey {α : Type} : List (String × α) → String → Option α
  | [], _ => none
  | (k', v) :: rest, k => if k' = k then some v else getKey rest k

theorem getKey_upsert {α : Type} (m : List (String × α)) (k k' : String) (v : α) :
    getKey (upsert m k v) k' = if k' = k then some v else getKey m k' := by
  induction m with
  | nil =>
    by_cases h : k' = k
    · simp [upsert, getKey, h]
    · simp [upsert, getKey, h, Ne.symm h]
  | cons p rest ih =>
    obtain ⟨a, b⟩ := p
    by_cases hak : a = k
    · subst hak
      by_cases h : k' = a
      · simp [upsert, getKey, h]
      · simp [upsert, getKey, h, Ne.symm h]
    · by_cases h : k' = a
      · subst h
        simp [upsert, getKey, hak, Ne.symm hak]
      · simp [upsert, getKey, hak, Ne.symm h, ih, h]

theorem getKey_append {α : Type} (l₁ l₂ : List (String × α)) (k : String) :
    getKey (l₁ ++ l₂) k = (getKey l₁ k).or (getKey l₂ k) := by
  induction l₁ with
  | nil => simp [getKey]
  | cons p rest ih =>
    obtain ⟨a, b⟩ := p
    by_cases h : a = k <;> simp [getKey, h, ih]

theorem getKey_map_value {α β : Type} (f : α → β) (l : List (String × α)) (k : String) :
    getKey (l.map (fun kv => (kv.1, f kv.2))) k = (getKey l k).map f := by
  induction l with
  | nil => simp [getKey]
  | cons p rest ih =>
    obtain ⟨a, b⟩ := p
    by_cases h : a = k <;> simp [getKey, h, ih]

/-! ## `JSON.stringify(value, null, 2)`

Character-level model of the ECMAScript serializer as invoked by the Project
Writer: two-space gap, so non-empty arrays and objects are broken over lines
with a two-spaces-per-level indent, and a space follows each key's colon. -/

def digitChar : Nat → Char
  | 0 => '0' | 1 => '1' | 2 => '2' | 3 => '3' | 4 => '4'
  | 5 => '5' | 6 => '6' | 7 => '7' | 8 => '8' | 9 => '9'
  | _ => '*'

/-- Lowercase hexadecimal digit, as produced by `QuoteJSONString`'s
`\u` escapes. -/
def hexChar : Nat → Char
  | 0 => '0' | 1 => '1' | 2 => '2' | 3 => '3' | 4 => '4'
  | 5 => '5' | 6 => '6' | 7 => '7' | 8 => '8' | 9 => '9'
  | 10 => 'a' | 11 => 'b' | 12 => 'c' | 13 => 'd' | 14 => 'e' | 15 => 'f'
  | _ => '*'

/-- Decimal digits of a natural number, most significant first. -/
def natChars (n : Nat) : List Char :=
  if n = 0 then ['0'] else ((Nat.digits 10 n).reverse).map digitChar

/-- The decimal representation `JSON.stringify` produces for an integral
JavaScript number. -/
def intChars : Int → List Char
  | .ofNat n => natChars n
  | .negSucc m => '-' :: natChars (m + 1)

/-- `QuoteJSONString`'s escaping of one character. -/
def quoteChar (c : Char) : List Char :=
  if c = '"' then ['\\', '"']
  else if c = '\\' then ['\\', '\\']
  else if c = '\x08' then ['\\', 'b']
  else if c = '\x0c' then ['\\', 'f']
  else if c = '\n' then ['\\', 'n']
  else if c = '\r' then ['\\', 'r']
  else if c = '\t' then ['\\', 't']
  else if c.toNat < 32 then ['\\', 'u', '0', '0', hexChar (c.toNat / 16), hexChar (c.toNat % 16)]
  else [c]

/-- A JSON string literal: quote, escaped characters, quote. -/
def quoteStringChars (s : String) : List Char :=
  '"' :: (s.data.flatMap quoteChar ++ ['"'])

/-- Indentation at nesting depth `d` with the two-space gap. -/
def indentChars (d : Nat) : List Char :=
  List.replicate (2 * d) ' '

mutual

/-- Serialize a JSON value nested at depth `d`. -/
def emitV (d : Nat) : Json → List Char
  | .null => "null".data
  | .bool true => "true".data
  | .bool false => "false".data
  | .num n => intChars n
  | .str s => quoteStringChars s
  | .arr [] => ['[', ']']
  | .arr (e :: es) =>
    '[' :: '\n' :: (indentChars (d + 1) ++ emitV (d + 1) e ++ emitItems (d + 1) es
      ++ '\n' :: (indentChars d ++ [']']))
  | .obj [] => ['{', '}']
  | .obj (kv :: kvs) =>
    '{' :: '\n' :: (indentChars (d + 1) ++ emitField (d + 1) kv ++ emitFields (d + 1) kvs
      ++ '\n' :: (indentChars d ++ ['}']))

/-- The remaining elements of a non-empty array: `,\n<indent><element>` each. -/
def emitItems (d : Nat) : List Json → List Char
  | [] => []
  | e :: es => ',' :: '\n' :: (indentChars d ++ emitV d e ++ emitItems d es)

/-- One object member: `"key": value`. -/
def emitField (d : Nat) : String × Json → List Char
  | (k, v) => quoteStringChars k ++ ':' :: ' ' :: emitV d v

/-- The remaining members of a non-empty object. -/
def emitFields (d : Nat) : List (String × Json) → List Char
  | [] => []
  | kv :: kvs => ',' :: '\n' :: (indentChars d ++ emitField d kv ++ emitFields d kvs)

end

/-- `JSON.stringify(x, null, 2)`. -/
def stringifyJson (x : Json) : String :=
  String.mk (emitV 0 x)

/-! ## `JSON.parse`

Character-level model of the ECMAScript JSON grammar, restricted to the
integer fragment of numbers (a fraction or exponent makes the parse fail
where real `JSON.parse` would produce a non-integral number).  Duplicate
object keys follow JavaScript semantics: the first occurrence fixes the
position, the last occurrence fixes the value.  `\u` escapes denoting lone
surrogates (representable in JavaScript strings but not as Unicode scalar
values) are rejected. -/

/-- JSON insignificant whitespace. -/
def isWsChar (c : Char) : Bool :=
  c = ' ' || c = '\t' || c = '\n' || c = '\r'

def skipWs : List Char → List Char
  | [] => []
  | c :: cs => if isWsChar c then skipWs cs else c :: cs

def charDigit? (c : Char) : Option Nat :=
  if c = '0' then some 0 else if c = '1' then some 1 else if c = '2' then some 2
  else if c = '3' then some 3 else if c = '4' then some 4 else if c = '5' then some 5
  else if c = '6' then some 6 else if c = '7' then some 7 else if c = '8' then some 8
  else if c = '9' then some 9 else none

def hexVal? (c : Char) : Option Nat :=
  match charDigit? c with
  | some d => some d
  | none =>
    if c = 'a' || c = 'A' then some 10 else if c = 'b' || c = 'B' then some 11
    else if c = 'c' || c = 'C' then some 12 else if c = 'd' || c = 'D' then some 13
    else if c = 'e' || c = 'E' then some 14 else if c = 'f' || c = 'F' then some 15
    else none

/-- Longest leading run of decimal digits. -/
def takeDigits : List Char → List Nat × List Char
  | [] => ([], [])
  | c :: cs =>
    match charDigit? c with
    | some d => let (ds, r) := takeDigits cs; (d :: ds, r)
    | none => ([], c :: cs)

/-- An unsigned JSON integer: at least one digit, no leading zero
(except `0` itself). -/
def parseNatNum (cs : List Char) : Option (Nat × List Char) :=
  match takeDigits cs with
  | ([], _) => none
  | (d :: ds, rest) =>
    if d = 0 ∧ ds ≠ [] then none
    else some ((d :: ds).foldl (fun a x => 10 * a + x) 0, rest)

def parseNumber (cs : List Char) : Option (Int × List Char) :=
  match cs with
  | '-' :: rest => (parseNatNum rest).map (fun p => (-(p.1 : Int), p.2))
  | _ => (parseNatNum cs).map (fun p => ((p.1 : Int), p.2))

/-- A scalar value from a `\uXXXX` code, when it is one. -/
def charFromCode? (n : Nat) : Option Char :=
  if h : n.isValidChar then some (Char.ofNat n) else none

/-- The character denoted by a single-letter string escape. -/
def escChar? (e : Char) : Option Char :=
  if e = '"' then some '"'
  else if e = '\\' then some '\\'
  else if e = '/' then some '/'
  else if e = 'b' then some '\x08'
  else if e = 'f' then some '\x0c'
  else if e = 'n' then some '\n'
  else if e = 'r' then some '\r'
  else if e = 't' then some '\t'
  else none

/-- The body of a JSON string literal after the opening quote: content
characters up to, and the remainder after, the closing quote. -/
def parseStringRest : List Char → Option (List Char × List Char)
  | [] => none
  | c :: rest =>
    if c = '"' then some ([], rest)
    else if c = '\\' then
      match rest with
      | [] => none
      | e :: rest1 =>
        if e = 'u' then
          match rest1 with
          | h1 :: h2 :: h3 :: h4 :: rest' =>
            match hexVal? h1, hexVal? h2, hexVal? h3, hexVal? h4 with
            | some a, some b, some x, some y =>
              match charFromCode? (4096 * a + 256 * b + 16 * x + y) with
              | some ch => (parseStringRest rest').map (fun p => (ch :: p.1, p.2))
              | none => none
            | _, _, _, _ => none
          | _ => none
        else
          match escChar? e with
          | some ch => (parseStringRest rest1).map (fun p => (ch :: p.1, p.2))
          | none => none
    else if c.toNat < 32 then none
    else (parseStringRest rest).map (fun p => (c :: p.1, p.2))

/-- JavaScript object literal building: each parsed member is assigned in
order, so a duplicate key keeps its first position and takes its last value. -/
def dedupFields (kvs : List (String × Json)) : List (String × Json) :=
  kvs.foldl (fun m kv => upsert m kv.1 kv.2) []

mutual

/-- Parse one JSON value (after skipping whitespace), returning it and the
unconsumed remainder.  `fuel` bounds the recursion; `parseJson` supplies
more fuel than any parseable input can consume. -/
def parseV : Nat → List Char → Option (Json × List Char)
  | 0, _ => none
  | fuel + 1, cs =>
    match skipWs cs with
    | 'n' :: 'u' :: 'l' :: 'l' :: rest => some (.null, rest)
    | 't' :: 'r' :: 'u' :: 'e' :: rest => some (.bool true, rest)
    | 'f' :: 'a' :: 'l' :: 's' :: 'e' :: rest => some (.bool false, rest)
    | '"' :: rest => (parseStringRest rest).map (fun p => (.str (String.mk p.1), p.2))
    | '[' :: rest =>
      if (skipWs rest).head? = some ']' then some (.arr [], (skipWs rest).tail)
      else (parseItems fuel (skipWs rest)).map (fun p => (.arr p.1, p.2))
    | '{' :: rest =>
      if (skipWs rest).head? = some '}' then some (.obj [], (skipWs rest).tail)
      else (parseFields fuel (skipWs rest)).map (fun p => (.obj (dedupFields p.1), p.2))
    | other => (parseNumber other).map (fun p => (.num p.1, p.2))

/-- Parse the elements of a non-empty array, up to and including `]`. -/
def parseItems : Nat → List Char → Option (List Json × List Char)
  | 0, _ => none
  | fuel + 1, cs =>
    match parseV fuel cs with
    | none => none
    | some (e, r) =>
      match skipWs r with
      | ',' :: r' =>
        match parseItems fuel r' with
        | none => none
        | some (es, r2) => some (e :: es, r2)
      | ']' :: r' => some ([e], r')
      | _ => none

/-- Parse the members of a non-empty object, up to and including `}`. -/
def parseFields : Nat → List Char → Option (List (String × Json) × List Char)
  | 0, _ => none
  | fuel + 1, cs =>
    match skipWs cs with
    | '"' :: rest =>
      match parseStringRest rest with
      | none => none
      | some (kcs, r) =>
        match skipWs r with
        | ':' :: r' =>
          match parseV fuel r' with
          | none => none
          | some (v, r2) =>
            match skipWs r2 with
            | ',' :: r3 =>
              match parseFields fuel r3 with
              | none => none
              | some (kvs, r4) => some ((String.mk kcs, v) :: kvs, r4)
            | '}' :: r3 => some ([(String.mk kcs, v)], r3)
            | _ => none
        | _ => none
    | _ => none

end

/-- `JSON.parse(s)`: parse one value and require only whitespace after it. -/
def parseJson (s : String) : Option Json :=
  match parseV (s.data.length + 1) s.data with
  | some (x, rest) => if skipWs rest = [] then some x else none
  | none => none

/-! ## Round trip: `JSON.parse` inverts `JSON.stringify` on well-formed values -/

mutual

/-- Node count, used to budget parser fuel. -/
def jsize : Json → Nat
  | .null | .bool _ | .num _ | .str _ => 1
  | .arr es => 1 + isizeList es
  | .obj kvs => 1 + fsizeFields kvs

def isizeList : List Json → Nat
  | [] => 0
  | e :: es => 1 + jsize e + isizeList es

def fsizeFields : List (String × Json) → Nat
  | [] => 0
  | kv :: kvs => 1 + jsize kv.2 + fsizeFields kvs

end

/-- Keys pairwise distinct, as in any JavaScript object. -/
def noDupKeys : List (String × Json) → Bool
  | [] => true
  | (k, _) :: rest => !(rest.any (fun kv => kv.1 == k)) && noDupKeys rest

mutual

/-- Well-formedness: every object layer has pairwise-distinct keys.  Every
value produced by `JSON.parse`, and every JavaScript object graph, is
well-formed. -/
def Json.wf : Json → Bool
  | .null | .bool _ | .num _ | .str _ => true
  | .arr es => Json.wfList es
  | .obj kvs => noDupKeys kvs && Json.wfFields kvs

def Json.wfList : List Json → Bool
  | [] => true
  | e :: es => Json.wf e && Json.wfList es

def Json.wfFields : List (String × Json) → Bool
  | [] => true
  | kv :: kvs => Json.wf kv.2 && Json.wfFields kvs

end

theorem jsize_pos : ∀ x : Json, 1 ≤ jsize x := by
  intro x
  cases x <;> simp [jsize]

/-- Characters an emitted value may be preceded by. -/
def AllWs (l : List Char) : Prop := ∀ c ∈ l, isWsChar c = true

theorem skipWs_append {w : List Char} (h : AllWs w) (cs : List Char) :
    skipWs (w ++ cs) = skipWs cs := by
  induction w with
  | nil => rfl
  | cons c w ih =>
    have hc : isWsChar c = true := h c (by simp)
    simp only [List.cons_append, skipWs, hc, if_pos]
    exact ih (fun c hc' => h c (by simp [hc']))

theorem skipWs_cons_not_ws {c : Char} (h : isWsChar c = false) (cs : List Char) :
    skipWs (c :: cs) = c :: cs := by
  simp [skipWs, h]

theorem allWs_indent (d : Nat) : AllWs (indentChars d) := by
  intro c hc
  simp [indentChars] at hc
  simp [hc.2, isWsChar]

theorem allWs_nl_indent (d : Nat) : AllWs ('\n' :: indentChars d) := by
  intro c hc
  rcases List.mem_cons.mp hc with h | h
  · simp [h, isWsChar]
  · exact allWs_indent d c h

/-- The continuation after an emitted value never begins with a digit, so the
maximal-munch number parser stops exactly at the value boundary. -/
def noDigitStart : List Char → Prop
  | [] => True
  | c :: _ => charDigit? c = none

theorem charDigit?_digitChar {d : Nat} (h : d < 10) : charDigit? (digitChar d) = some d := by
  interval_cases d <;> rfl

theorem hexVal?_hexChar {h : Nat} (hh : h < 16) : hexVal? (hexChar h) = some h := by
  interval_cases h <;> rfl

theorem isWsChar_digitChar {d : Nat} (h : d < 10) : isWsChar (digitChar d) = false := by
  interval_cases d <;> rfl

theorem parseV_digitChar {k : Nat} (hk : k < 10) (t : List Char) (fuel : Nat) :
    parseV (fuel + 1) (digitChar k :: t)
      = (parseNumber (digitChar k :: t)).map (fun p => (Json.num p.1, p.2)) := by
  interval_cases k <;> rfl

theorem parseNumber_digitChar {k : Nat} (hk : k < 10) (t : List Char) :
    parseNumber (digitChar k :: t)
      = (parseNatNum (digitChar k :: t)).map (fun p => ((p.1 : Int), p.2)) := by
  interval_cases k <;> rfl

theorem takeDigits_noDigit {cs : List Char} (h : noDigitStart cs) :
    takeDigits cs = ([], cs) := by
  cases cs with
  | nil => rfl
  | cons c rest =>
    simp only [noDigitStart] at h
    simp [takeDigits, h]

theorem takeDigits_map {ds : List Nat} (h : ∀ d ∈ ds, d < 10) {rest : List Char}
    (hr : noDigitStart rest) :
    takeDigits (ds.map digitChar ++ rest) = (ds, rest) := by
  induction ds with
  | nil => simpa using takeDigits_noDigit hr
  | cons d ds ih =>
    have hd : d < 10 := h d (by simp)
    have ih' := ih (fun x hx => h x (by simp [hx]))
    simp [takeDigits, charDigit?_digitChar hd, ih']

theorem foldl_digits_ofDigits (l : List Nat) :
    (l.reverse).foldl (fun a x => 10 * a + x) 0 = Nat.ofDigits 10 l := by
  rw [List.foldl_reverse]
  induction l with
  | nil => simp [Nat.ofDigits]
  | cons d l ih =>
    simp only [List.foldr_cons, Nat.ofDigits_cons, ih]
    push_cast
    omega

/-- Decomposition of `natChars`: a non-empty digit list whose leading digit is
zero only for the number `0`, folding back to the number. -/
theorem natChars_spec (n : Nat) :
    ∃ d0 ds, natChars n = (d0 :: ds).map digitChar ∧ (∀ d ∈ d0 :: ds, d < 10)
      ∧ (d0 = 0 → ds = []) ∧ (d0 :: ds).foldl (fun a x => 10 * a + x) 0 = n := by
  by_cases hn : n = 0
  · subst hn
    exact ⟨0, [], rfl, by simp, fun _ => rfl, rfl⟩
  · have hne : Nat.digits 10 n ≠ [] := Nat.digits_ne_nil_iff_ne_zero.mpr hn
    have hrev : (Nat.digits 10 n).reverse ≠ [] := by simpa using hne
    obtain ⟨d0, ds, hds⟩ := List.exists_cons_of_ne_nil hrev
    refine ⟨d0, ds, ?_, ?_, ?_, ?_⟩
    · simp [natChars, hn, hds]
    · intro d hd
      have : d ∈ Nat.digits 10 n := by
        rw [← List.mem_reverse, hds]
        exact hd
      exact Nat.digits_lt_base (by norm_num) this
    · intro h0
      have hlast : (Nat.digits 10 n).getLast hne ≠ 0 := Nat.getLast_digit_ne_zero 10 hn
      have hd0 : (Nat.digits 10 n).getLast hne = d0 := by
        have heq : Nat.digits 10 n = ds.reverse ++ [d0] := by
          have := congrArg List.reverse hds
          simpa using this
        simp [heq]
      rw [hd0] at hlast
      exact absurd h0 hlast
    · have := foldl_digits_ofDigits (Nat.digits 10 n)
      rw [hds] at this
      rw [this, Nat.ofDigits_digits]

theorem parseNatNum_natChars (n : Nat) {rest : List Char} (hr : noDigitStart rest) :
    parseNatNum (natChars n ++ rest) = some (n, rest) := by
  obtain ⟨d0, ds, hn, hlt, hz, hfold⟩ := natChars_spec n
  rw [hn]
  unfold parseNatNum
  rw [takeDigits_map hlt hr]
  by_cases h0 : d0 = 0 ∧ ds ≠ []
  · exact absurd (hz h0.1) h0.2
  · simp only [h0, if_false, hfold]

theorem parseNumber_intChars (n : Int) {rest : List Char} (hr : noDigitStart rest) :
    parseNumber (intChars n ++ rest) = some (n, rest) := by
  cases n with
  | ofNat m =>
    obtain ⟨d0, ds, hn, hlt, -, -⟩ := natChars_spec m
    have hd0 : d0 < 10 := hlt d0 (by simp)
    have hsplit : intChars (Int.ofNat m) ++ rest
        = digitChar d0 :: (ds.map digitChar ++ rest) := by
      simp [intChars, hn]
    rw [hsplit, parseNumber_digitChar hd0]
    have : digitChar d0 :: (ds.map digitChar ++ rest) = natChars m ++ rest := by
      simp [hn]
    rw [this, parseNatNum_natChars m hr]
    simp
  | negSucc m =>
    have hsplit : intChars (Int.negSucc m) ++ rest = '-' :: (natChars (m + 1) ++ rest) := by
      simp [intChars]
    rw [hsplit]
    show (parseNatNum (natChars (m + 1) ++ rest)).map _ = _
    rw [parseNatNum_natChars (m + 1) hr]
    simp [Int.negSucc_eq]

theorem charFromCode?_toNat (c : Char) : charFromCode? c.toNat = some c := by
  have hv : Nat.isValidChar c.toNat := c.valid
  simp [charFromCode?, hv, Char.ofNat_toNat]

theorem parseStringRest_esc {e ch : Char} (he : escChar? e = some ch) (hne : e ≠ 'u')
    (T : List Char) :
    parseStringRest ('\\' :: e :: T) = (parseStringRest T).map (fun p => (ch :: p.1, p.2)) := by
  rw [parseStringRest.eq_def]
  simp [hne, he]

theorem parseStringRest_hex {c : Char} (h8 : c.toNat < 32) (T : List Char) :
    parseStringRest ('\\' :: 'u' :: '0' :: '0'
        :: hexChar (c.toNat / 16) :: hexChar (c.toNat % 16) :: T)
      = (parseStringRest T).map (fun p => (c :: p.1, p.2)) := by
  rw [parseStringRest.eq_def]
  have hhi : hexVal? (hexChar (c.toNat / 16)) = some (c.toNat / 16) :=
    hexVal?_hexChar (by omega)
  have hlo : hexVal? (hexChar (c.toNat % 16)) = some (c.toNat % 16) :=
    hexVal?_hexChar (Nat.mod_lt _ (by norm_num))
  have hcode : 16 * (c.toNat / 16) + c.toNat % 16 = c.toNat := by
    have := Nat.div_add_mod c.toNat 16
    omega
  have h0 : hexVal? '0' = some 0 := rfl
  simp [h0, hhi, hlo, hcode, charFromCode?_toNat]

theorem parseStringRest_plain {c : Char} (h1 : c ≠ '"') (h2 : c ≠ '\\')
    (h8 : ¬ c.toNat < 32) (T : List Char) :
    parseStringRest (c :: T) = (parseStringRest T).map (fun p => (c :: p.1, p.2)) := by
  rw [parseStringRest.eq_def]
  simp [h1, h2, h8]

/-- Parsing a string-literal body inverts `QuoteJSONString`'s escaping. -/
theorem parseStringRest_quote (cs : List Char) (rest : List Char) :
    parseStringRest (cs.flatMap quoteChar ++ '"' :: rest) = some (cs, rest) := by
  induction cs with
  | nil =>
    rw [List.flatMap_nil, List.nil_append, parseStringRest.eq_def]
    simp
  | cons c cs ih =>
    have hassoc : ((c :: cs).flatMap quoteChar ++ '"' :: rest)
        = quoteChar c ++ (cs.flatMap quoteChar ++ '"' :: rest) := by simp
    rw [hassoc]
    by_cases h1 : c = '"'
    · subst h1
      rw [show quoteChar '"' = ['\\', '"'] from rfl]
      rw [List.cons_append, List.cons_append, List.nil_append,
        parseStringRest_esc (by rfl) (by decide), ih]
      rfl
    by_cases h2 : c = '\\'
    · subst h2
      rw [show quoteChar '\\' = ['\\', '\\'] from rfl]
      rw [List.cons_append, List.cons_append, List.nil_append,
        parseStringRest_esc (by rfl) (by decide), ih]
      rfl
    by_cases h3 : c = '\x08'
    · subst h3
      rw [show quoteChar '\x08' = ['\\', 'b'] from rfl]
      rw [List.cons_append, List.cons_append, List.nil_append,
        parseStringRest_esc (by rfl) (by decide), ih]
      rfl
    by_cases h4 : c = '\x0c'
    · subst h4
      rw [show quoteChar '\x0c' = ['\\', 'f'] from rfl]
      rw [List.cons_append, List.cons_append, List.nil_append,
        parseStringRest_esc (by rfl) (by decide), ih]
      rfl
    by_cases h5 : c = '\n'
    · subst h5
      rw [show quoteChar '\n' = ['\\', 'n'] from rfl]
      rw [List.cons_append, List.cons_append, List.nil_append,
        parseStringRest_esc (by rfl) (by decide), ih]
      rfl
    by_cases h6 : c = '\r'
    · subst h6
      rw [show quoteChar '\r' = ['\\', 'r'] from rfl]
      rw [List.cons_append, List.cons_append, List.nil_append,
        parseStringRest_esc (by rfl) (by decide), ih]
      rfl
    by_cases h7 : c = '\t'
    · subst h7
      rw [show quoteChar '\t' = ['\\', 't'] from rfl]
      rw [List.cons_append, List.cons_append, List.nil_append,
        parseStringRest_esc (by rfl) (by decide), ih]
      rfl
    by_cases h8 : c.toNat < 32
    · have hq : quoteChar c
          = ['\\', 'u', '0', '0', hexChar (c.toNat / 16), hexChar (c.toNat % 16)] := by
        simp [quoteChar, h1, h2, h3, h4, h5, h6, h7, h8]
      rw [hq]
      simp only [List.cons_append, List.nil_append]
      rw [parseStringRest_hex h8, ih]
      rfl
    · have hq : quoteChar c = [c] := by
        simp [quoteChar, h1, h2, h3, h4, h5, h6, h7, h8]
      rw [hq]
      simp only [List.cons_append, List.nil_append]
      rw [parseStringRest_plain h1 h2 h8, ih]
      rfl

theorem parseV_intChars (n : Int) {rest : List Char} (hr : noDigitStart rest) (fuel : Nat) :
    parseV (fuel + 1) (intChars n ++ rest) = some (.num n, rest) := by
  cases n with
  | ofNat m =>
    obtain ⟨d0, ds, hn, hlt, -, -⟩ := natChars_spec m
    have hd0 : d0 < 10 := hlt d0 (by simp)
    have hsplit : intChars (Int.ofNat m) ++ rest
        = digitChar d0 :: (ds.map digitChar ++ rest) := by
      simp [intChars, hn]
    rw [hsplit, parseV_digitChar hd0, ← hsplit, parseNumber_intChars _ hr]
    simp
  | negSucc m =>
    have hsplit : intChars (Int.negSucc m) ++ rest = '-' :: (natChars (m + 1) ++ rest) := by
      simp [intChars]
    rw [hsplit]
    show (parseNumber ('-' :: (natChars (m + 1) ++ rest))).map _ = _
    rw [← hsplit, parseNumber_intChars _ hr]
    simp

theorem parseV_ws {w : List Char} (h : AllWs w) (fuel : Nat) (cs : List Char) :
    parseV fuel (w ++ cs) = parseV fuel cs := by
  cases fuel with
  | zero => rfl
  | succ f =>
    conv_lhs => rw [parseV.eq_def]
    conv_rhs => rw [parseV.eq_def]
    simp only [skipWs_append h]

theorem parseItems_ws {w : List Char} (h : AllWs w) (fuel : Nat) (cs : List Char) :
    parseItems fuel (w ++ cs) = parseItems fuel cs := by
  cases fuel with
  | zero => rfl
  | succ f =>
    conv_lhs => rw [parseItems.eq_def]
    conv_rhs => rw [parseItems.eq_def]
    simp only [parseV_ws h]

theorem parseFields_ws {w : List Char} (h : AllWs w) (fuel : Nat) (cs : List Char) :
    parseFields fuel (w ++ cs) = parseFields fuel cs := by
  cases fuel with
  | zero => rfl
  | succ f =>
    conv_lhs => rw [parseFields.eq_def]
    conv_rhs => rw [parseFields.eq_def]
    simp only [skipWs_append h]

theorem digitChar_facts {d : Nat} (h : d < 10) :
    isWsChar (digitChar d) = false ∧ digitChar d ≠ ']' ∧ digitChar d ≠ '}' := by
  interval_cases d <;> exact ⟨rfl, by decide, by decide⟩

/-- An emitted value starts with a non-whitespace character that is not a
closing bracket. -/
theorem emitV_cons (d : Nat) (x : Json) :
    ∃ c t, emitV d x = c :: t ∧ isWsChar c = false ∧ c ≠ ']' ∧ c ≠ '}' := by
  cases x with
  | null => exact ⟨'n', ['u', 'l', 'l'], rfl, by decide, by decide, by decide⟩
  | bool b =>
    cases b with
    | true => exact ⟨'t', ['r', 'u', 'e'], rfl, by decide, by decide, by decide⟩
    | false =>
      exact ⟨'f', ['a', 'l', 's', 'e'], rfl, by decide, by decide, by decide⟩
  | num n =>
    cases n with
    | ofNat m =>
      obtain ⟨d0, ds, hn, hlt, -, -⟩ := natChars_spec m
      have hd0 : d0 < 10 := hlt d0 (by simp)
      obtain ⟨hws, hbr, hbc⟩ := digitChar_facts hd0
      exact ⟨digitChar d0, ds.map digitChar, by simp [emitV, intChars, hn], hws, hbr, hbc⟩
    | negSucc m =>
      exact ⟨'-', natChars (m + 1), by simp [emitV, intChars], by decide, by decide, by decide⟩
  | str s =>
    exact ⟨'"', s.data.flatMap quoteChar ++ ['"'],
      by simp [emitV, quoteStringChars], by decide, by decide, by decide⟩
  | arr es =>
    cases es with
    | nil => exact ⟨'[', [']'], by simp [emitV], by decide, by decide, by decide⟩
    | cons e es =>
      exact ⟨'[', '\n' :: (indentChars (d + 1) ++ (emitV (d + 1) e
          ++ (emitItems (d + 1) es ++ '\n' :: (indentChars d ++ [']'])))),
        by simp [emitV], by decide, by decide, by decide⟩
  | obj kvs =>
    cases kvs with
    | nil => exact ⟨'{', ['}'], by simp [emitV], by decide, by decide, by decide⟩
    | cons kv kvs =>
      exact ⟨'{', '\n' :: (indentChars (d + 1) ++ (emitField (d + 1) kv
          ++ (emitFields (d + 1) kvs ++ '\n' :: (indentChars d ++ ['}'])))),
        by simp [emitV], by decide, by decide, by decide⟩

theorem skipWs_emitV (d : Nat) (x : Json) (t : List Char) :
    skipWs (emitV d x ++ t) = emitV d x ++ t := by
  obtain ⟨c, cs, hx, hws, -, -⟩ := emitV_cons d x
  rw [hx, List.cons_append, skipWs_cons_not_ws hws]

theorem head?_emitV_ne_rbracket (d : Nat) (x : Json) (t : List Char) :
    ¬ (emitV d x ++ t).head? = some ']' := by
  obtain ⟨c, cs, hx, -, hbr, -⟩ := emitV_cons d x
  rw [hx]
  simpa using hbr

theorem head?_emitV_ne_rbrace (d : Nat) (x : Json) (t : List Char) :
    ¬ (emitV d x ++ t).head? = some '}' := by
  obtain ⟨c, cs, hx, -, -, hbc⟩ := emitV_cons d x
  rw [hx]
  simpa using hbc

theorem noDigitStart_emitItems (d : Nat) (es : List Json) (t : List Char) :
    noDigitStart (emitItems d es ++ '\n' :: t) := by
  cases es with
  | nil => simp [emitItems, noDigitStart, charDigit?]
  | cons e es => simp [emitItems, noDigitStart, charDigit?]

theorem noDigitStart_emitFields (d : Nat) (kvs : List (String × Json)) (t : List Char) :
    noDigitStart (emitFields d kvs ++ '\n' :: t) := by
  cases kvs with
  | nil => simp [emitFields, noDigitStart, charDigit?]
  | cons kv kvs => simp [emitFields, noDigitStart, charDigit?]

theorem upsert_append_of_keys_ne {α : Type} {m : List (String × α)} {k : String} (v : α)
    (h : ∀ p ∈ m, p.1 ≠ k) : upsert m k v = m ++ [(k, v)] := by
  induction m with
  | nil => rfl
  | cons p rest ih =>
    obtain ⟨a, b⟩ := p
    have ha : a ≠ k := h (a, b) (by simp)
    simp only [upsert, if_neg ha, List.cons_append]
    rw [ih (fun q hq => h q (by simp [hq]))]

theorem noDupKeys_head {k : String} {v : Json} {rest : List (String × Json)}
    (h : noDupKeys ((k, v) :: rest) = true) :
    (∀ kv ∈ rest, kv.1 ≠ k) ∧ noDupKeys rest = true := by
  simp only [noDupKeys, Bool.and_eq_true, Bool.not_eq_true'] at h
  refine ⟨?_, h.2⟩
  intro kv hkv
  have := List.any_eq_false.mp h.1 kv hkv
  simpa using this

theorem foldl_upsert_of_noDup (kvs : List (String × Json)) :
    ∀ acc, noDupKeys kvs = true → (∀ kv ∈ kvs, ∀ p ∈ acc, p.1 ≠ kv.1) →
      kvs.foldl (fun m kv => upsert m kv.1 kv.2) acc = acc ++ kvs := by
  induction kvs with
  | nil => intro acc _ _; simp
  | cons kv rest ih =>
    intro acc hnd hdisj
    obtain ⟨k, v⟩ := kv
    obtain ⟨hne, hnd'⟩ := noDupKeys_head hnd
    rw [List.foldl_cons]
    have hup : upsert acc k v = acc ++ [(k, v)] :=
      upsert_append_of_keys_ne v (fun p hp => hdisj (k, v) (by simp) p hp)
    rw [hup, ih (acc ++ [(k, v)]) hnd']
    · simp
    · intro kv' hkv' p hp
      rcases List.mem_append.mp hp with hp | hp
      · exact hdisj kv' (by simp [hkv']) p hp
      · simp at hp
        subst hp
        exact (hne kv' hkv').symm

theorem dedupFields_of_noDup {kvs : List (String × Json)} (h : noDupKeys kvs = true) :
    dedupFields kvs = kvs := by
  have := foldl_upsert_of_noDup kvs [] h (by simp)
  simpa [dedupFields] using this

theorem skipWs_nl (L : List Char) : skipWs ('\n' :: L) = skipWs L := rfl

theorem skipWs_space (L : List Char) : skipWs (' ' :: L) = skipWs L := rfl

theorem parseV_lbracket (fuel : Nat) (T : List Char) :
    parseV (fuel + 1) ('[' :: T)
      = if (skipWs T).head? = some ']' then some (.arr [], (skipWs T).tail)
        else (parseItems fuel (skipWs T)).map (fun p => (.arr p.1, p.2)) := rfl

theorem parseV_lbrace (fuel : Nat) (T : List Char) :
    parseV (fuel + 1) ('{' :: T)
      = if (skipWs T).head? = some '}' then some (.obj [], (skipWs T).tail)
        else (parseFields fuel (skipWs T)).map (fun p => (.obj (dedupFields p.1), p.2)) := rfl

theorem parseItems_step (fuel : Nat) (cs : List Char) :
    parseItems (fuel + 1) cs
      = match parseV fuel cs with
        | none => none
        | some (e, r) =>
          match skipWs r with
          | ',' :: r' =>
            match parseItems fuel r' with
            | none => none
            | some (es, r2) => some (e :: es, r2)
          | ']' :: r' => some ([e], r')
          | _ => none := rfl

theorem parseFields_step (fuel : Nat) (cs : List Char) :
    parseFields (fuel + 1) cs
      = match skipWs cs with
        | '"' :: rest =>
          match parseStringRest rest with
          | none => none
          | some (kcs, r) =>
            match skipWs r with
            | ':' :: r' =>
              match parseV fuel r' with
              | none => none
              | some (v, r2) =>
                match skipWs r2 with
                | ',' :: r3 =>
                  match parseFields fuel r3 with
                  | none => none
                  | some (kvs, r4) => some ((String.mk kcs, v) :: kvs, r4)
                | '}' :: r3 => some ([(String.mk kcs, v)], r3)
                | _ => none
            | _ => none
        | _ => none := rfl

mutual

/-- Parsing an emitted value recovers it, leaving the continuation intact. -/
theorem parseV_emit : ∀ (x : Json) (d fuel : Nat) (rest : List Char),
    Json.wf x = true → jsize x ≤ fuel → noDigitStart rest →
    parseV fuel (emitV d x ++ rest) = some (x, rest)
  | x, _, 0, _ => by
    intro _ hsz _
    have := jsize_pos x
    omega
  | .null, d, fuel + 1, rest => by
    intro _ _ _
    rw [show emitV d .null = ['n', 'u', 'l', 'l'] from rfl]
    rfl
  | .bool true, d, fuel + 1, rest => by
    intro _ _ _
    rw [show emitV d (.bool true) = ['t', 'r', 'u', 'e'] from rfl]
    rfl
  | .bool false, d, fuel + 1, rest => by
    intro _ _ _
    rw [show emitV d (.bool false) = ['f', 'a', 'l', 's', 'e'] from rfl]
    rfl
  | .num n, d, fuel + 1, rest => by
    intro _ _ hrest
    rw [show emitV d (.num n) = intChars n by simp [emitV]]
    exact parseV_intChars n hrest fuel
  | .str s, d, fuel + 1, rest => by
    intro _ _ _
    rw [show emitV d (.str s) = '"' :: (s.data.flatMap quoteChar ++ ['"'])
      by simp [emitV, quoteStringChars]]
    show (parseStringRest ((s.data.flatMap quoteChar ++ ['"']) ++ rest)).map _ = _
    rw [List.append_assoc, List.singleton_append, parseStringRest_quote]
    rfl
  | .arr [], d, fuel + 1, rest => by
    intro _ _ _
    rw [show emitV d (.arr []) = ['[', ']'] by simp [emitV]]
    rfl
  | .arr (e :: es), d, fuel + 1, rest => by
    intro hwf hsz hrest
    have hwf' : Json.wf e = true ∧ Json.wfList es = true := by
      have h : Json.wf (.arr (e :: es)) = (Json.wf e && Json.wfList es) := by
        simp [Json.wf, Json.wfList]
      rw [h] at hwf
      exact Bool.and_eq_true_iff.mp hwf
    have hsz' : 1 + jsize e + isizeList es ≤ fuel := by
      have h : jsize (.arr (e :: es)) = 2 + jsize e + isizeList es := by
        simp [jsize, isizeList]
        omega
      omega
    rw [show emitV d (.arr (e :: es)) = '[' :: '\n' :: (indentChars (d + 1)
        ++ (emitV (d + 1) e ++ (emitItems (d + 1) es ++ '\n' :: (indentChars d ++ [']']))))
      by simp [emitV]]
    rw [List.cons_append, List.cons_append, parseV_lbracket, skipWs_nl]
    have hT : (indentChars (d + 1) ++ (emitV (d + 1) e ++ (emitItems (d + 1) es
        ++ '\n' :: (indentChars d ++ [']'])))) ++ rest
        = indentChars (d + 1) ++ (emitV (d + 1) e ++ (emitItems (d + 1) es
            ++ '\n' :: (indentChars d ++ (']' :: rest)))) := by
      simp
    rw [hT, skipWs_append (allWs_indent (d + 1)), skipWs_emitV]
    rw [if_neg (head?_emitV_ne_rbracket (d + 1) e _)]
    rw [parseItems_emit e es (d + 1) d fuel rest hwf'.1 hwf'.2 hsz' hrest]
    rfl
  | .obj [], d, fuel + 1, rest => by
    intro _ _ _
    rw [show emitV d (.obj []) = ['{', '}'] by simp [emitV]]
    rfl
  | .obj (kv :: kvs), d, fuel + 1, rest => by
    intro hwf hsz hrest
    have hwf' : noDupKeys (kv :: kvs) = true ∧ Json.wf kv.2 = true
        ∧ Json.wfFields kvs = true := by
      have h : Json.wf (.obj (kv :: kvs))
          = (noDupKeys (kv :: kvs) && (Json.wf kv.2 && Json.wfFields kvs)) := by
        simp [Json.wf, Json.wfFields]
      rw [h] at hwf
      simpa [Bool.and_eq_true_iff, and_assoc] using hwf
    have hsz' : 1 + jsize kv.2 + fsizeFields kvs ≤ fuel := by
      have h : jsize (.obj (kv :: kvs)) = 2 + jsize kv.2 + fsizeFields kvs := by
        simp [jsize, fsizeFields]
        omega
      omega
    rw [show emitV d (.obj (kv :: kvs)) = '{' :: '\n' :: (indentChars (d + 1)
        ++ (emitField (d + 1) kv ++ (emitFields (d + 1) kvs
          ++ '\n' :: (indentChars d ++ ['}'])))) by simp [emitV]]
    rw [List.cons_append, List.cons_append, parseV_lbrace, skipWs_nl]
    have hT : (indentChars (d + 1) ++ (emitField (d + 1) kv ++ (emitFields (d + 1) kvs
        ++ '\n' :: (indentChars d ++ ['}'])))) ++ rest
        = indentChars (d + 1) ++ (emitField (d + 1) kv ++ (emitFields (d + 1) kvs
            ++ '\n' :: (indentChars d ++ ('}' :: rest)))) := by
      simp
    rw [hT, skipWs_append (allWs_indent (d + 1))]
    have hfield : emitField (d + 1) kv ++ (emitFields (d + 1) kvs
        ++ '\n' :: (indentChars d ++ ('}' :: rest)))
        = '"' :: ((kv.1.data.flatMap quoteChar ++ ['"'])
            ++ (':' :: ' ' :: emitV (d + 1) kv.2 ++ (emitFields (d + 1) kvs
              ++ '\n' :: (indentChars d ++ ('}' :: rest))))) := by
      obtain ⟨k, v⟩ := kv
      simp [emitField, quoteStringChars]
    rw [hfield, skipWs_cons_not_ws (by decide)]
    rw [if_neg (by simp)]
    rw [← hfield, parseFields_emit kv kvs (d + 1) d fuel rest hwf'.2.1 hwf'.2.2 hsz' hrest]
    rw [show Option.map (fun p => (Json.obj (dedupFields p.1), p.2))
          (some (kv :: kvs, rest)) = some (Json.obj (dedupFields (kv :: kvs)), rest) from rfl]
    rw [dedupFields_of_noDup hwf'.1]
  termination_by x _ _ _ => sizeOf x

/-- Parsing the serialized items of a non-empty array recovers them. -/
theorem parseItems_emit : ∀ (e : Json) (es : List Json) (di dc fuel : Nat) (rest : List Char),
    Json.wf e = true → Json.wfList es = true → 1 + jsize e + isizeList es ≤ fuel →
    noDigitStart rest →
    parseItems fuel (emitV di e ++ (emitItems di es ++ '\n' :: (indentChars dc ++ ']' :: rest)))
      = some (e :: es, rest)
  | e, es, di, dc, 0, rest => by
    intro _ _ hsz _
    omega
  | e, es, di, dc, fuel + 1, rest => by
    intro hwe hwes hsz hrest
    rw [parseItems_step]
    rw [parseV_emit e di fuel _ hwe (by omega) (noDigitStart_emitItems di es _)]
    cases es with
    | nil =>
      rw [show emitItems di ([] : List Json) ++ '\n' :: (indentChars dc ++ ']' :: rest)
        = '\n' :: (indentChars dc ++ ']' :: rest) by simp [emitItems]]
      simp only [skipWs_nl, skipWs_append (allWs_indent dc),
        skipWs_cons_not_ws (show isWsChar ']' = false by decide)]
    | cons e2 es' =>
      have hwf2 : Json.wf e2 = true ∧ Json.wfList es' = true := by
        have h : Json.wfList (e2 :: es') = (Json.wf e2 && Json.wfList es') := by
          simp [Json.wfList]
        rw [h] at hwes
        exact Bool.and_eq_true_iff.mp hwes
      have hsz2 : 1 + jsize e2 + isizeList es' ≤ fuel := by
        have h1 : isizeList (e2 :: es') = 1 + jsize e2 + isizeList es' := by
          simp [isizeList]
        have h2 : 1 ≤ jsize e := jsize_pos e
        omega
      have hemit : emitItems di (e2 :: es') ++ '\n' :: (indentChars dc ++ ']' :: rest)
          = ',' :: (('\n' :: indentChars di) ++ (emitV di e2 ++ (emitItems di es'
              ++ '\n' :: (indentChars dc ++ ']' :: rest)))) := by
        simp [emitItems]
      simp only [hemit, skipWs_cons_not_ws (show isWsChar ',' = false by decide)]
      rw [parseItems_ws (allWs_nl_indent di)]
      rw [parseItems_emit e2 es' di dc fuel rest hwf2.1 hwf2.2 hsz2 hrest]
  termination_by e es _ _ _ _ => 1 + sizeOf e + sizeOf es

/-- Parsing the serialized members of a non-empty object recovers them. -/
theorem parseFields_emit :
    ∀ (kv : String × Json) (kvs : List (String × Json)) (di dc fuel : Nat) (rest : List Char),
    Json.wf kv.2 = true → Json.wfFields kvs = true → 1 + jsize kv.2 + fsizeFields kvs ≤ fuel →
    noDigitStart rest →
    parseFields fuel
        (emitField di kv ++ (emitFields di kvs ++ '\n' :: (indentChars dc ++ '}' :: rest)))
      = some (kv :: kvs, rest)
  | kv, kvs, di, dc, 0, rest => by
    intro _ _ hsz _
    omega
  | (k, v), kvs, di, dc, fuel + 1, rest => by
    intro hwv hwkvs hsz hrest
    rw [parseFields_step]
    have hshape : emitField di (k, v) ++ (emitFields di kvs
        ++ '\n' :: (indentChars dc ++ '}' :: rest))
        = '"' :: (k.data.flatMap quoteChar ++ '"' :: (':' :: (' ' :: (emitV di v
            ++ (emitFields di kvs ++ '\n' :: (indentChars dc ++ '}' :: rest)))))) := by
      simp [emitField, quoteStringChars]
    simp only [hshape, skipWs_cons_not_ws (show isWsChar '"' = false by decide),
      parseStringRest_quote, skipWs_cons_not_ws (show isWsChar ':' = false by decide)]
    rw [show (' ' :: (emitV di v ++ (emitFields di kvs
        ++ '\n' :: (indentChars dc ++ '}' :: rest))))
      = [' '] ++ (emitV di v ++ (emitFields di kvs
        ++ '\n' :: (indentChars dc ++ '}' :: rest))) from rfl]
    rw [parseV_ws (by intro c hc; simp at hc; simp [hc, isWsChar])]
    have hszv : 1 + jsize v + fsizeFields kvs ≤ fuel + 1 := hsz
    rw [parseV_emit v di fuel _ hwv (by omega) (noDigitStart_emitFields di kvs _)]
    cases kvs with
    | nil =>
      rw [show emitFields di ([] : List (String × Json))
          ++ '\n' :: (indentChars dc ++ '}' :: rest)
        = '\n' :: (indentChars dc ++ '}' :: rest) by simp [emitFields]]
      simp only [skipWs_nl, skipWs_append (allWs_indent dc),
        skipWs_cons_not_ws (show isWsChar '}' = false by decide)]
    | cons kv2 kvs' =>
      have hwf2 : Json.wf kv2.2 = true ∧ Json.wfFields kvs' = true := by
        have h : Json.wfFields (kv2 :: kvs') = (Json.wf kv2.2 && Json.wfFields kvs') := by
          simp [Json.wfFields]
        rw [h] at hwkvs
        exact Bool.and_eq_true_iff.mp hwkvs
      have hsz2 : 1 + jsize kv2.2 + fsizeFields kvs' ≤ fuel := by
        have h1 : fsizeFields (kv2 :: kvs') = 1 + jsize kv2.2 + fsizeFields kvs' := by
          simp [fsizeFields]
        have h2 : 1 ≤ jsize v := jsize_pos v
        omega
      have hemit : emitFields di (kv2 :: kvs') ++ '\n' :: (indentChars dc ++ '}' :: rest)
          = ',' :: (('\n' :: indentChars di) ++ (emitField di kv2 ++ (emitFields di kvs'
              ++ '\n' :: (indentChars dc ++ '}' :: rest)))) := by
        simp [emitFields]
      simp only [hemit, skipWs_cons_not_ws (show isWsChar ',' = false by decide)]
      rw [parseFields_ws (allWs_nl_indent di)]
      rw [parseFields_emit kv2 kvs' di dc fuel rest hwf2.1 hwf2.2 hsz2 hrest]
  termination_by kv kvs _ _ _ _ => 1 + sizeOf kv + sizeOf kvs

end

mutual

/-- Parser fuel budget: each node of the value costs at most one character of
the serialized text. -/
theorem jsize_le_emitV : ∀ (x : Json) (d : Nat), jsize x ≤ (emitV d x).length
  | .null, d => by simp [jsize, emitV]
  | .bool true, d => by simp [jsize, emitV]
  | .bool false, d => by simp [jsize, emitV]
  | .num n, d => by
    have h : 1 ≤ (intChars n).length := by
      cases n with
      | ofNat m =>
        obtain ⟨d0, ds, hn, -, -, -⟩ := natChars_spec m
        simp [intChars, hn]
      | negSucc m => simp [intChars]
    simpa [jsize, emitV] using h
  | .str s, d => by simp [jsize, emitV, quoteStringChars]
  | .arr [], d => by simp [jsize, isizeList, emitV]
  | .arr (e :: es), d => by
    have h1 := jsize_le_emitV e (d + 1)
    have h2 := isize_le_emitItems es (d + 1)
    simp only [jsize, isizeList, emitV, List.length_cons, List.length_append]
    omega
  | .obj [], d => by simp [jsize, fsizeFields, emitV]
  | .obj (kv :: kvs), d => by
    have h1 := jsize_le_emitV kv.2 (d + 1)
    have h2 := fsize_le_emitFields kvs (d + 1)
    obtain ⟨k, v⟩ := kv
    simp only [jsize, fsizeFields, emitV, emitField, quoteStringChars, List.length_cons,
      List.length_append] at h1 h2 ⊢
    omega

theorem isize_le_emitItems : ∀ (es : List Json) (d : Nat),
    isizeList es ≤ (emitItems d es).length
  | [], d => by simp [isizeList, emitItems]
  | e :: es, d => by
    have h1 := jsize_le_emitV e d
    have h2 := isize_le_emitItems es d
    simp only [isizeList, emitItems, List.length_cons, List.length_append]
    omega

theorem fsize_le_emitFields : ∀ (kvs : List (String × Json)) (d : Nat),
    fsizeFields kvs ≤ (emitFields d kvs).length
  | [], d => by simp [fsizeFields, emitFields]
  | kv :: kvs, d => by
    have h1 := jsize_le_emitV kv.2 d
    have h2 := fsize_le_emitFields kvs d
    obtain ⟨k, v⟩ := kv
    simp only [fsizeFields, emitFields, emitField, quoteStringChars, List.length_cons,
      List.length_append] at h1 h2 ⊢
    omega

end

/-- `JSON.parse` inverts `JSON.stringify(·, null, 2)` on every well-formed
JSON value. -/
theorem parseJson_stringifyJson {x : Json} (h : Json.wf x = true) :
    parseJson (stringifyJson x) = some x := by
  unfold parseJson stringifyJson
  have hdata : (String.mk (emitV 0 x)).data = emitV 0 x := rfl
  rw [hdata]
  have hfuel : jsize x ≤ (emitV 0 x).length + 1 :=
    le_trans (jsize_le_emitV x 0) (by omega)
  have hmain := parseV_emit x 0 ((emitV 0 x).length + 1) [] h hfuel trivial
  rw [List.append_nil] at hmain
  rw [hmain]
  rfl

/-! ## The filesystem and error model

`read-from-disk.service.js` reaches the outside world only through `fs.readFile`,
`fs.writeFile` and `fs.stat`; an `FSState` value fixes the outcome of each. -/

/-- Outcome of `fs.readFile`: UTF-8 content, or an error with a `code`
(`"ENOENT"` for a missing file). -/
inductive FileResult where
  | ok (data : String)
  | err (code : String)
  deriving DecidableEq, Repr

/-- Outcome of `fs.stat`, reduced to the `birthtimeMs` field — the only one the
pipeline reads. -/
inductive StatResult where
  | ok (birthtimeMs : Int)
  | err (code : String)
  deriving DecidableEq, Repr

structure FSState where
  file : String → FileResult
  stat : String → StatResult
  /-- `fs.writeFile` failure for a path, if any. -/
  writeErr : String → Option String

/-- The errors a promise of this module can reject with: an I/O error carrying
its `code`, a `JSON.parse` `SyntaxError`, or a `TypeError` (property access on
`undefined`/`null`, `path.join` on a non-string, assignment to a primitive). -/
inductive JsErr where
  | io (code : String)
  | parse
  | typeError
  deriving DecidableEq, Repr

/-- A promise's outcome: it fulfils, rejects, or never settles. -/
inductive POutcome (ε α : Type) where
  | ok (a : α)
  | rejected (e : ε)
  | pending
  deriving DecidableEq, Repr

/-- The fulfilment value, if any — what a `.catch`-to-default observes once the
promise settles. -/
def POutcome.toOption {ε α : Type} : POutcome ε α → Option α
  | .ok a => some a
  | _ => none

def POutcome.isPending {ε α : Type} : POutcome ε α → Bool
  | .pending => true
  | _ => false

/-- `path.join` as used by the pipeline: plain relative segments. -/
def joinPath (segments : List String) : String :=
  String.intercalate "/" segments

/-! ## JavaScript value helpers -/

/-- JavaScript property access `j[k]`, `undefined` mapped to `none`.  (Adequate
for the keys this pipeline reads; exotic string/array own-properties such as
`length` are never accessed.) -/
def getField : Json → String → Option Json
  | .obj kvs, k => getKey kvs k
  | _, _ => none

/-- JavaScript truthiness of a JSON value. -/
def truthy : Json → Bool
  | .null => false
  | .bool b => b
  | .num n => n != 0
  | .str s => !s.isEmpty
  | .arr _ => true
  | .obj _ => true

/-- `expr || {}` on a possibly-absent field value. -/
def orEmptyObj : Option Json → Json
  | some v => if truthy v then v else .obj []
  | none => .obj []

/-- `Object.keys`: own enumerable keys in insertion order (index keys for
arrays and strings, none for other primitives). -/
def objKeys : Json → List String
  | .obj kvs => kvs.map (fun kv => kv.1)
  | .arr es => (List.range es.length).map (fun i => toString i)
  | .str s => (List.range s.length).map (fun i => toString i)
  | _ => []

mutual

/-- JavaScript `ToString` of a JSON value, as used for a computed object key.
Exact for primitives; arrays join their elements with `","` (`null` rendered
empty), objects render as `"[object Object]"`. -/
def jsToString : Json → String
  | .null => "null"
  | .bool b => if b then "true" else "false"
  | .num n => toString n
  | .str s => s
  | .arr es => String.intercalate "," (jsElemStrings es)
  | .obj _ => "[object Object]"

def jsElemStrings : List Json → List String
  | [] => []
  | .null :: es => "" :: jsElemStrings es
  | e :: es => jsToString e :: jsElemStrings es

end

/-- The property key a JavaScript value produces in `{[value]: ...}`;
`undefined` renders as `"undefined"`. -/
def jsKeyOf : Option Json → String
  | some v => jsToString v
  | none => "undefined"

/-! ## Manifest Reader (`loadProjectFSStat`, `loadPackageJson`,
`loadManifestJson`, `loadIcon`) and Project Writer (`writePackageJson`)

The `JSON.parse` calls sit inside `fs.readFile` callbacks: a parse throw is
uncaught (the promise executor has already returned), so the promise never
settles — modelled as `.pending`. -/

def loadProjectFSStat (fs : FSState) (projectPath : String) : Except JsErr Int :=
  match fs.stat projectPath with
  | .ok t => .ok t
  | .err c => .error (.io c)

def pkgPath (projectPath : String) : String :=
  joinPath [projectPath, "package.json"]

def loadPackageJson (fs : FSState) (projectPath : String) : POutcome JsErr Json :=
  match fs.file (pkgPath projectPath) with
  | .err c => .rejected (.io c)
  | .ok data =>
    match parseJson data with
    | some json => .ok json
    | none => .pending

/-- `loadManifestJson`: the manifest's location is `packageJson.skpm.manifest`.
A missing or non-string pointer makes the member access / `path.join` throw a
`TypeError` inside the promise executor, i.e. the promise rejects; a manifest
file that exists but does not parse makes the promise never settle (the parse
throw happens in the `fs.readFile` callback). -/
def loadManifestJson (fs : FSState) (projectPath : String) (packageJson : Json) :
    POutcome JsErr Json :=
  match getField packageJson "skpm" with
  | none => .rejected .typeError
  | some skpm =>
    match getField skpm "manifest" with
    | some (.str rel) =>
      match fs.file (joinPath [projectPath, rel]) with
      | .err c => .rejected (.io c)
      | .ok data =>
        match parseJson data with
        | some json => .ok json
        | none => .pending
    | _ => .rejected .typeError

/-- `loadIcon`: reads `assets/icon.png` with base64 encoding.  The bytes are
modelled abstractly; the base64 text encoding is injective and never inspected,
so the stored content stands for its encoded form. -/
def loadIcon (fs : FSState) (projectPath : String) : Except JsErr String :=
  match fs.file (joinPath [projectPath, "assets", "icon.png"]) with
  | .ok data => .ok data
  | .err c => .error (.io c)

/-- `writePackageJson`: overwrite `package.json` with
`JSON.stringify(json, null, 2)` and resolve with `json`. -/
def writePackageJson (fs : FSState) (projectPath : String) (json : Json) :
    Except JsErr (FSState × Json) :=
  let prettyPrintedPackageJson := stringifyJson json
  match fs.writeErr (pkgPath projectPath) with
  | some c => .error (.io c)
  | none =>
    .ok ({ fs with
      file := fun q =>
        if q = pkgPath projectPath then .ok prettyPrintedPackageJson else fs.file q },
      json)

/-! ## Project Loader (`loadProject`) -/

/-- The JavaScript object a project record is: the parsed descriptor mutated in
place.  Property values are `Option Json`, `none` standing for `undefined`
(`json.__skpm_manifest = undefined` creates the property).  A descriptor that
parses to an array is an object too, with element list and assigned extra
properties. -/
inductive JsValue where
  | objv (props : List (String × Option Json))
  | arrv (elems : List Json) (props : List (String × Option Json))
  deriving DecidableEq, Repr

def getProp : JsValue → String → Option (Option Json)
  | .objv props, k => getKey props k
  | .arrv _ props, k => getKey props k

/-- The key `loadProjects` files a record under: `project.name` coerced to a
property key. -/
def recordNameKey (r : JsValue) : String :=
  match getProp r "name" with
  | some (some v) => jsToString v
  | _ => "undefined"

/-- The record built in `loadProject`'s final `.then`: the parsed descriptor
object mutated with the three reserved properties.  The module is strict-mode
code, so the assignment on a descriptor that parsed to `null` or another
primitive throws a `TypeError`, rejecting the promise. -/
def projectRecord (json : Json) (manifest : Option Json) (icon : Option String)
    (stat : Option Int) : POutcome JsErr JsValue :=
  match json with
  | .obj kvs =>
    .ok (.objv (upsert (upsert (upsert (kvs.map (fun kv => (kv.1, some kv.2)))
      "__skpm_manifest" manifest) "__skpm_icon" (icon.map .str))
      "__skpm_createdAt" (stat.map .num)))
  | .arr es =>
    .ok (.arrv es (upsert (upsert (upsert [] "__skpm_manifest" manifest)
      "__skpm_icon" (icon.map .str)) "__skpm_createdAt" (stat.map .num)))
  | _ => .rejected .typeError

/-- `loadProject`: hard-fail on the descriptor (and hang while it hangs), then
attempt manifest, icon and stat concurrently, each `.catch`ed into `undefined`.
The `.catch` fires only when the manifest promise *rejects*; a manifest
promise that never settles (unparseable manifest file) leaves `Promise.all` —
and `loadProject` — forever pending. -/
def loadProject (fs : FSState) (projectPath : String) : POutcome JsErr JsValue :=
  match loadPackageJson fs projectPath with
  | .rejected e => .rejected e
  | .pending => .pending
  | .ok json =>
    match loadManifestJson fs projectPath json with
    | .pending => .pending
    | .ok mjson => projectRecord json (some mjson)
        ((loadIcon fs projectPath).toOption) ((loadProjectFSStat fs projectPath).toOption)
    | .rejected _ => projectRecord json none
        ((loadIcon fs projectPath).toOption) ((loadProjectFSStat fs projectPath).toOption)

/-! ## `async/map` with an explicit completion schedule

All tasks are started at once; `σ` lists the task indices in completion order.
Each completion stores its result at its input index; the first error (in
completion order) invokes the final callback with it immediately; otherwise the
final callback receives the slots in input order. -/

/-- One completion step per schedule entry: a settled task completes at its
schedule position (an error completion fires the final callback at once); a
pending task never completes, so its entry never fires.  At the end of the
schedule the final callback has run only if no task is still pending. -/
def schedRun {ε α : Type} (tasks : List (POutcome ε α)) :
    List Nat → (Nat → Option α) → POutcome ε (Nat → Option α)
  | [], acc => if tasks.any POutcome.isPending then .pending else .ok acc
  | i :: rest, acc =>
    match tasks[i]? with
    | none => schedRun tasks rest acc
    | some (.rejected e) => .rejected e
    | some .pending => schedRun tasks rest acc
    | some (.ok a) => schedRun tasks rest (fun j => if j = i then some a else acc j)

def asyncMapSched {ε α : Type} (tasks : List (POutcome ε α)) (σ : List Nat) :
    POutcome ε (List (Option α)) :=
  match schedRun tasks σ (fun _ => none) with
  | .rejected e => .rejected e
  | .pending => .pending
  | .ok slots => .ok ((List.range tasks.length).map slots)

/-- A completion schedule: every task completes (exactly once, when `σ` is a
permutation of `List.range n`; membership is all the lemmas need). -/
def Covers (σ : List Nat) (n : Nat) : Prop := ∀ i, i < n → i ∈ σ

/-! ## Project Set Aggregator (`loadProjects`) -/

/-- One `asyncMap` task of `loadProjects`: `loadProject(p).then(json =>
callback(null, json)).catch(err => callback(null, null))` — a rejected load
completes the task with `null`, but when `loadProject` never settles the task
never completes. -/
def loadProjectTask (fs : FSState) (projectPath : String) :
    POutcome JsErr (Option JsValue) :=
  match loadProject fs projectPath with
  | .ok r => .ok (some r)
  | .rejected _ => .ok none
  | .pending => .pending

/-- The record a settled per-path task delivers, if any. -/
def loadProjectOpt (fs : FSState) (projectPath : String) : Option JsValue :=
  match loadProject fs projectPath with
  | .ok r => some r
  | _ => none

def loadProjects (fs : FSState) (projectPaths : List String) (σ : List Nat) :
    POutcome JsErr (List (String × JsValue)) :=
  match asyncMapSched (projectPaths.map (loadProjectTask fs)) σ with
  | .rejected e => .rejected e
  | .pending => .pending
  | .ok results =>
    let validProjects := results.filterMap (fun r => r.bind id)
    .ok (validProjects.foldl (fun projectsMap project =>
      upsert projectsMap (recordNameKey project) project) [])

/-! ## Dependency Metadata Reader (`loadProjectDependency`) -/

/-- Modelled from the spec: the `pick` helper imported from `src/utils` (whose
file is not included under `src/`) — "parse and project onto a fixed field
subset {name, description, keywords, version, homepage, license, repository}",
"absent fields stay absent": each requested key is copied when the source
object has it. -/
def pick (j : Json) : List String → List (String × Json)
  | [] => []
  | k :: ks =>
    match getField j k with
    | some v => (k, v) :: pick j ks
    | none => pick j ks

def depFields : List String :=
  ["name", "description", "keywords", "version", "homepage", "license", "repository"]

/-- A resolved dependency record is a plain JavaScript object. -/
abbrev Dep := List (String × Json)

def depPath (projectPath dependencyName : String) : String :=
  joinPath [projectPath, "node_modules", dependencyName, "package.json"]

/-- `loadProjectDependency`: `ENOENT` resolves `null`, any other read error
rejects; an installed descriptor that reads but does not parse throws in the
`fs.readFile` callback, so the promise never settles. -/
def loadProjectDependency (fs : FSState) (projectPath dependencyName : String)
    (dependencyLocation : String) : POutcome JsErr (Option Dep) :=
  match fs.file (depPath projectPath dependencyName) with
  | .err code => if code = "ENOENT" then .ok none else .rejected (.io code)
  | .ok data =>
    match parseJson data with
    | none => .pending
    | some packageJson =>
      let packageJsonSubset := pick packageJson depFields
      .ok (some (packageJsonSubset
        ++ [("status", .str "idle"), ("location", .str dependencyLocation)]))

/-! ## Dependency Set Aggregator (`loadProjectDependencies`,
`loadAllProjectDependencies`) -/

/-- `loadProjectDependencies`: `asyncMap` over the queued `{name, location}`
pairs; a `null` (not-found) item survives to the results and is filtered out;
an error aborts the batch and rejects; an item that never settles keeps the
final callback from ever running, so the batch never settles. -/
def loadProjectDependencies (fs : FSState) (projectPath : String)
    (dependencies : List (String × String)) (σ : List Nat) :
    POutcome JsErr (List Dep) :=
  match asyncMapSched (dependencies.map (fun q =>
      loadProjectDependency fs projectPath q.1 q.2)) σ with
  | .rejected e => .rejected e
  | .pending => .pending
  | .ok results => .ok (results.filterMap (fun r => r.bind id))

/-- The queue recomputed from a fresh descriptor: all `dependencies` keys, then
all `devDependencies` keys, each tagged `devDependencies` iff the name occurs
among the `devDependencies` keys. -/
def queueOf (packageJson : Json) : List (String × String) :=
  let deps := objKeys (orEmptyObj (getField packageJson "dependencies"))
  let devDeps := objKeys (orEmptyObj (getField packageJson "devDependencies"))
  (deps ++ devDeps).map (fun name =>
    (name, if devDeps.contains name then "devDependencies" else "dependencies"))

/-- The key the dependency fold uses: `dependency.name`, i.e. the `name` field
picked from the installed descriptor, coerced to a property key. -/
def depNameKey (dep : Dep) : String :=
  jsKeyOf (getKey dep "name")

/-- `loadAllProjectDependencies`: re-read the descriptor, build the queue,
resolve the batch, fold into a name-keyed map.  `packageJson.dependencies` on
a descriptor that parsed to JSON `null` throws a `TypeError` inside the
executor, rejecting the promise.  The inner promise's `.then` call passes a
fulfilment handler only, so a batch rejection leaves the inner promise — and
hence the returned promise — forever unsettled; a batch that never settles
leaves it pending too. -/
def loadAllProjectDependencies (fs : FSState) (projectPath : String) (σ : List Nat) :
    POutcome JsErr (List (String × Dep)) :=
  match loadPackageJson fs projectPath with
  | .rejected e => .rejected e
  | .pending => .pending
  | .ok packageJson =>
    if packageJson = Json.null then .rejected .typeError
    else
      match loadProjectDependencies fs projectPath (queueOf packageJson) σ with
      | .rejected _ => .pending
      | .pending => .pending
      | .ok dependenciesFromPackageJson =>
        .ok (dependenciesFromPackageJson.foldl (fun dependenciesMap dependency =>
          upsert dependenciesMap (depNameKey dependency) dependency) [])

/-! ## Schedule lemmas: `async/map` is input-order deterministic -/

theorem schedRun_ok_apply {ε α : Type} (tasks : List (POutcome ε α))
    (hnp : tasks.any POutcome.isPending = false) :
    ∀ (σ : List Nat) (acc : Nat → Option α),
      (∀ j ∈ σ, ∀ e, tasks[j]? ≠ some (.rejected e)) →
      ∃ f, schedRun tasks σ acc = .ok f
        ∧ (∀ j a, tasks[j]? = some (.ok a) → j ∈ σ → f j = some a)
        ∧ (∀ j, j ∉ σ → f j = acc j)
        ∧ (∀ j, tasks[j]? = none → f j = acc j) := by
  intro σ
  induction σ with
  | nil =>
    intro acc _
    exact ⟨acc, by simp [schedRun, hnp], fun j a _ hj => absurd hj (List.not_mem_nil j),
      fun _ _ => rfl, fun _ _ => rfl⟩
  | cons i rest ih =>
    intro acc h
    cases hti : tasks[i]? with
    | none =>
      obtain ⟨f, hf, h1, h2, h3⟩ := ih acc (fun j hj e => h j (by simp [hj]) e)
      refine ⟨f, by simp only [schedRun, hti]; exact hf, ?_, ?_, ?_⟩
      · intro j a hja hj
        rcases List.mem_cons.mp hj with hj | hj
        · subst hj
          rw [hti] at hja
          exact absurd hja (by simp)
        · exact h1 j a hja hj
      · intro j hj
        exact h2 j (fun hmem => hj (by simp [hmem]))
      · exact h3
    | some t =>
      cases t with
      | rejected e => exact absurd hti (h i (by simp) e)
      | pending =>
        exfalso
        obtain ⟨hlt, heq⟩ := List.getElem?_eq_some.mp hti
        have hmem : (POutcome.pending : POutcome ε α) ∈ tasks :=
          heq ▸ List.getElem_mem hlt
        have hany : tasks.any POutcome.isPending = true :=
          List.any_eq_true.mpr ⟨_, hmem, rfl⟩
        rw [hnp] at hany
        exact absurd hany (by simp)
      | ok a =>
        obtain ⟨f, hf, h1, h2, h3⟩ :=
          ih (fun j => if j = i then some a else acc j) (fun j hj e => h j (by simp [hj]) e)
        refine ⟨f, by simp only [schedRun, hti]; exact hf, ?_, ?_, ?_⟩
        · intro j b hjb hj
          by_cases hjr : j ∈ rest
          · exact h1 j b hjb hjr
          · rcases List.mem_cons.mp hj with hj | hj
            · subst hj
              rw [hti] at hjb
              have hab : a = b := by
                have := Option.some.inj hjb
                exact POutcome.ok.inj this
              rw [h2 j hjr, if_pos rfl, hab]
            · exact absurd hj hjr
        · intro j hj
          have hjr : j ∉ rest := fun hm => hj (by simp [hm])
          have hji : j ≠ i := fun he => hj (by simp [he])
          rw [h2 j hjr, if_neg hji]
        · intro j hjn
          have hji : j ≠ i := by
            intro he
            subst he
            rw [hti] at hjn
            exact absurd hjn (by simp)
          rw [h3 j hjn, if_neg hji]

/-- A rejected task listed in the schedule makes the run abort with some
error: pending tasks cannot block an error completion. -/
theorem schedRun_reaches {ε α : Type} {tasks : List (POutcome ε α)} {i : Nat} {e : ε}
    (hrej : tasks[i]? = some (.rejected e)) :
    ∀ (σ : List Nat) (acc : Nat → Option α), i ∈ σ →
      ∃ e', schedRun tasks σ acc = .rejected e' := by
  intro σ
  induction σ with
  | nil => intro acc hj; exact absurd hj (List.not_mem_nil i)
  | cons i0 rest ih =>
    intro acc hj
    cases hti : tasks[i0]? with
    | none =>
      have hir : i ∈ rest := by
        rcases List.mem_cons.mp hj with hj | hj
        · subst hj
          rw [hti] at hrej
          exact absurd hrej (by simp)
        · exact hj
      obtain ⟨e', he'⟩ := ih acc hir
      exact ⟨e', by rw [schedRun, hti]; exact he'⟩
    | some t =>
      cases t with
      | rejected e0 => exact ⟨e0, by rw [schedRun, hti]⟩
      | pending =>
        have hir : i ∈ rest := by
          rcases List.mem_cons.mp hj with hj | hj
          · subst hj
            rw [hti] at hrej
            exact absurd hrej (by simp)
          · exact hj
        obtain ⟨e', he'⟩ := ih acc hir
        exact ⟨e', by rw [schedRun, hti]; exact he'⟩
      | ok a =>
        have hir : i ∈ rest := by
          rcases List.mem_cons.mp hj with hj | hj
          · subst hj
            rw [hti] at hrej
            exact absurd hrej (by simp)
          · exact hj
        obtain ⟨e', he'⟩ := ih _ hir
        exact ⟨e', by rw [schedRun, hti]; exact he'⟩

theorem schedRun_error_mem {ε α : Type} {tasks : List (POutcome ε α)} :
    ∀ {σ : List Nat} {acc : Nat → Option α} {e : ε},
      schedRun tasks σ acc = .rejected e → ∃ j ∈ σ, tasks[j]? = some (.rejected e) := by
  intro σ
  induction σ with
  | nil =>
    intro acc e h
    rw [schedRun] at h
    split at h
    · exact absurd h (by simp)
    · exact absurd h (by simp)
  | cons i rest ih =>
    intro acc e hrun
    cases hti : tasks[i]? with
    | none =>
      rw [schedRun, hti] at hrun
      obtain ⟨j, hj, hje⟩ := ih hrun
      exact ⟨j, by simp [hj], hje⟩
    | some t =>
      cases t with
      | rejected e' =>
        rw [schedRun, hti] at hrun
        have : e' = e := by
          have := hrun
          simpa using this
        subst this
        exact ⟨i, by simp, hti⟩
      | pending =>
        rw [schedRun, hti] at hrun
        obtain ⟨j, hj, hje⟩ := ih hrun
        exact ⟨j, by simp [hj], hje⟩
      | ok a =>
        rw [schedRun, hti] at hrun
        obtain ⟨j, hj, hje⟩ := ih hrun
        exact ⟨j, by simp [hj], hje⟩

/-- With no rejected task in the schedule and some task forever pending, the
final callback never runs. -/
theorem schedRun_pending_of {ε α : Type} {tasks : List (POutcome ε α)}
    (hp : tasks.any POutcome.isPending = true) :
    ∀ (σ : List Nat) (acc : Nat → Option α),
      (∀ j ∈ σ, ∀ e, tasks[j]? ≠ some (.rejected e)) →
      schedRun tasks σ acc = .pending := by
  intro σ
  induction σ with
  | nil => intro acc _; simp [schedRun, hp]
  | cons i rest ih =>
    intro acc h
    cases hti : tasks[i]? with
    | none =>
      rw [schedRun, hti]
      exact ih acc (fun j hj e => h j (by simp [hj]) e)
    | some t =>
      cases t with
      | rejected e => exact absurd hti (h i (by simp) e)
      | pending =>
        rw [schedRun, hti]
        exact ih acc (fun j hj e => h j (by simp [hj]) e)
      | ok a =>
        rw [schedRun, hti]
        exact ih _ (fun j hj e => h j (by simp [hj]) e)

/-- With no tasks at all there is nothing to wait for. -/
theorem schedRun_nil_tasks {ε α : Type} :
    ∀ (σ : List Nat) (acc : Nat → Option α),
      schedRun ([] : List (POutcome ε α)) σ acc = .ok acc := by
  intro σ
  induction σ with
  | nil => intro acc; simp [schedRun]
  | cons i rest ih =>
    intro acc
    rw [schedRun]
    exact ih acc

/-- With a covering schedule and no failing or hanging task, `async/map`
fulfils with the per-task results in input order — completion order leaves no
trace. -/
theorem asyncMapSched_ok {ε α : Type} {tasks : List (POutcome ε α)} {σ : List Nat}
    (hcov : Covers σ tasks.length)
    (hok : ∀ j, j < tasks.length → ∃ a, tasks[j]? = some (.ok a)) :
    asyncMapSched tasks σ = .ok (tasks.map POutcome.toOption) := by
  have hne : ∀ j ∈ σ, ∀ e, tasks[j]? ≠ some (.rejected e) := by
    intro j _ e hje
    have hjlt : j < tasks.length := (List.getElem?_eq_some.mp hje).1
    obtain ⟨a, ha⟩ := hok j hjlt
    rw [ha] at hje
    exact absurd hje (by simp)
  have hnp : tasks.any POutcome.isPending = false := by
    by_contra hc
    rw [Bool.not_eq_false] at hc
    obtain ⟨t, hmem, hpt⟩ := List.any_eq_true.mp hc
    obtain ⟨i, hi, hig⟩ := List.mem_iff_getElem.mp hmem
    obtain ⟨a, ha⟩ := hok i hi
    rw [List.getElem?_eq_getElem hi, hig] at ha
    cases t with
    | pending => exact POutcome.noConfusion (Option.some.inj ha)
    | ok b => simp [POutcome.isPending] at hpt
    | rejected e => simp [POutcome.isPending] at hpt
  obtain ⟨f, hf, h1, -, -⟩ := schedRun_ok_apply tasks hnp σ (fun _ => none) hne
  unfold asyncMapSched
  rw [hf]
  show POutcome.ok ((List.range tasks.length).map f)
    = POutcome.ok (tasks.map POutcome.toOption)
  congr 1
  apply List.ext_getElem
  · simp
  · intro i hi1 hi2
    simp only [List.getElem_map, List.getElem_range]
    have hilt : i < tasks.length := by simpa using hi1
    obtain ⟨a, ha⟩ := hok i hilt
    rw [h1 i a ha (hcov i hilt)]
    have : tasks[i] = .ok a := by
      have := List.getElem?_eq_some.mp ha
      exact this.2
    rw [this]
    rfl

/-- With a covering schedule, one failing task makes `async/map` abort with a
failing task's error, pending tasks notwithstanding. -/
theorem asyncMapSched_error {ε α : Type} {tasks : List (POutcome ε α)} {σ : List Nat}
    (hcov : Covers σ tasks.length) {i : Nat} {e : ε}
    (hi : tasks[i]? = some (.rejected e)) :
    ∃ e' : ε, asyncMapSched tasks σ = POutcome.rejected e'
      ∧ ∃ j : Nat, tasks[j]? = some (POutcome.rejected e') := by
  have himem : i ∈ σ := hcov i (List.getElem?_eq_some.mp hi).1
  obtain ⟨e', he'⟩ := schedRun_reaches hi σ (fun _ => none) himem
  unfold asyncMapSched
  rw [he']
  obtain ⟨j, -, hje⟩ := schedRun_error_mem he'
  exact ⟨e', rfl, j, hje⟩

/-- With no failing task and some task that never settles, `async/map`'s final
callback never runs. -/
theorem asyncMapSched_pending {ε α : Type} {tasks : List (POutcome ε α)} (σ : List Nat)
    (hnr : ∀ (j : Nat) (e : ε), tasks[j]? ≠ some (POutcome.rejected e))
    {i : Nat} (hp : tasks[i]? = some .pending) :
    asyncMapSched tasks σ = .pending := by
  have hany : tasks.any POutcome.isPending = true := by
    obtain ⟨hlt, heq⟩ := List.getElem?_eq_some.mp hp
    have hmem : (POutcome.pending : POutcome ε α) ∈ tasks :=
      heq ▸ List.getElem_mem hlt
    exact List.any_eq_true.mpr ⟨_, hmem, rfl⟩
  have hrun := schedRun_pending_of hany σ (fun _ => none) (fun j _ e => hnr j e)
  unfold asyncMapSched
  rw [hrun]

/-! ## Folding records into a keyed registry -/

/-- `reduce((map, r) => ({...map, [key r]: r}), {})` looks up to the **last**
matching element (later spreads overwrite earlier ones). -/
theorem getKey_foldl_upsertBy {α : Type} (key : α → String) :
    ∀ (l : List α) (m : List (String × α)) (k : String),
      getKey (l.foldl (fun m r => upsert m (key r) r) m) k
        = (l.reverse.find? (fun r => key r == k)).or (getKey m k) := by
  intro l
  induction l with
  | nil => intro m k; simp
  | cons r l ih =>
    intro m k
    rw [List.foldl_cons, ih, List.reverse_cons, List.find?_append, getKey_upsert]
    cases hfind : l.reverse.find? (fun r => key r == k) with
    | some x => simp
    | none =>
      simp only [Option.none_or]
      by_cases hk : k = key r
      · subst hk
        simp [List.find?]
      · have hb : (key r == k) = false := by
          simp [Ne.symm hk]
        simp only [List.find?, hb, if_neg hk]
        exact Option.none_or.symm

theorem getKey_foldl_isSome {α : Type} (key : α → String) (l : List α) (k : String) :
    (getKey (l.foldl (fun m r => upsert m (key r) r) []) k).isSome
      ↔ ∃ r ∈ l, key r = k := by
  rw [getKey_foldl_upsertBy]
  simp only [getKey, Option.or_none]
  rw [List.find?_isSome]
  constructor
  · rintro ⟨x, hx, hp⟩
    exact ⟨x, List.mem_reverse.mp hx, by simpa using hp⟩
  · rintro ⟨x, hx, hp⟩
    exact ⟨x, List.mem_reverse.mpr hx, by simpa using hp⟩

theorem getKey_foldl_mem {α : Type} (key : α → String) (l : List α) (k : String)
    (r : α) (h : getKey (l.foldl (fun m r => upsert m (key r) r) []) k = some r) :
    r ∈ l ∧ key r = k := by
  rw [getKey_foldl_upsertBy] at h
  simp only [getKey, Option.or_none] at h
  have hm := List.mem_reverse.mp (List.mem_of_find?_eq_some h)
  have hp := List.find?_some h
  exact ⟨hm, by simpa using hp⟩

/-! ## Shape of `loadProject` results -/

/-- Whether a parsed descriptor is a JavaScript object (strict-mode property
assignment succeeds on it). -/
def objOrArr : Json → Bool
  | .obj _ => true
  | .arr _ => true
  | _ => false

theorem loadProject_err {fs : FSState} {p : String} {e : JsErr}
    (h : loadPackageJson fs p = .rejected e) : loadProject fs p = .rejected e := by
  unfold loadProject
  rw [h]

/-- A descriptor read whose parse hangs hangs the whole project load. -/
theorem loadProject_wait {fs : FSState} {p : String}
    (h : loadPackageJson fs p = .pending) : loadProject fs p = .pending := by
  unfold loadProject
  rw [h]

/-- A manifest promise that never settles leaves `Promise.all` — and the
project load — forever pending, whatever the descriptor parsed to. -/
theorem loadProject_stall {fs : FSState} {p : String} {json : Json}
    (h : loadPackageJson fs p = .ok json)
    (hm : loadManifestJson fs p json = .pending) : loadProject fs p = .pending := by
  unfold loadProject
  rw [h]
  simp only [hm]

theorem loadProject_obj {fs : FSState} {p : String} {kvs : List (String × Json)}
    (h : loadPackageJson fs p = .ok (.obj kvs))
    (hm : loadManifestJson fs p (.obj kvs) ≠ .pending) :
    loadProject fs p = .ok (.objv (upsert (upsert (upsert
      (kvs.map fun kv => (kv.1, some kv.2))
      "__skpm_manifest" ((loadManifestJson fs p (.obj kvs)).toOption))
      "__skpm_icon" (((loadIcon fs p).toOption).map Json.str))
      "__skpm_createdAt" (((loadProjectFSStat fs p).toOption).map Json.num))) := by
  cases hmres : loadManifestJson fs p (.obj kvs) with
  | pending => exact absurd hmres hm
  | ok mj =>
    unfold loadProject
    rw [h]
    simp only [hmres, projectRecord, POutcome.toOption]
  | rejected e =>
    unfold loadProject
    rw [h]
    simp only [hmres, projectRecord, POutcome.toOption]

theorem loadProject_arr {fs : FSState} {p : String} {es : List Json}
    (h : loadPackageJson fs p = .ok (.arr es))
    (hm : loadManifestJson fs p (.arr es) ≠ .pending) :
    loadProject fs p = .ok (.arrv es (upsert (upsert (upsert []
      "__skpm_manifest" ((loadManifestJson fs p (.arr es)).toOption))
      "__skpm_icon" (((loadIcon fs p).toOption).map Json.str))
      "__skpm_createdAt" (((loadProjectFSStat fs p).toOption).map Json.num))) := by
  cases hmres : loadManifestJson fs p (.arr es) with
  | pending => exact absurd hmres hm
  | ok mj =>
    unfold loadProject
    rw [h]
    simp only [hmres, projectRecord, POutcome.toOption]
  | rejected e =>
    unfold loadProject
    rw [h]
    simp only [hmres, projectRecord, POutcome.toOption]

/-- On a primitive descriptor the manifest lookup rejects (a `TypeError` from
the `skpm` member access) and the record-building assignment throws, so the
load rejects with a `TypeError`. -/
theorem loadProject_prim {fs : FSState} {p : String} {json : Json}
    (h : loadPackageJson fs p = .ok json) (hprim : objOrArr json = false) :
    loadProject fs p = .rejected .typeError := by
  have hman : loadManifestJson fs p json = .rejected .typeError := by
    cases json with
    | null => rfl
    | bool b => rfl
    | num n => rfl
    | str s => rfl
    | obj kvs => simp [objOrArr] at hprim
    | arr es => simp [objOrArr] at hprim
  unfold loadProject
  rw [h]
  simp only [hman]
  cases json with
  | null => rfl
  | bool b => rfl
  | num n => rfl
  | str s => rfl
  | obj kvs => simp [objOrArr] at hprim
  | arr es => simp [objOrArr] at hprim

theorem record_getProp_user (kvs : List (String × Json)) (m : Option Json)
    (i c : Option Json) (k : String) (hk1 : k ≠ "__skpm_manifest")
    (hk2 : k ≠ "__skpm_icon") (hk3 : k ≠ "__skpm_createdAt") :
    getKey (upsert (upsert (upsert (kvs.map fun kv => (kv.1, some kv.2))
        "__skpm_manifest" m) "__skpm_icon" i) "__skpm_createdAt" c) k
      = (getKey kvs k).map some := by
  rw [getKey_upsert, if_neg hk3, getKey_upsert, if_neg hk2, getKey_upsert, if_neg hk1,
    getKey_map_value]

theorem record_getProp_reserved (base : List (String × Option Json))
    (m i c : Option Json) :
    getKey (upsert (upsert (upsert base "__skpm_manifest" m) "__skpm_icon" i)
        "__skpm_createdAt" c) "__skpm_manifest" = some m
    ∧ getKey (upsert (upsert (upsert base "__skpm_manifest" m) "__skpm_icon" i)
        "__skpm_createdAt" c) "__skpm_icon" = some i
    ∧ getKey (upsert (upsert (upsert base "__skpm_manifest" m) "__skpm_icon" i)
        "__skpm_createdAt" c) "__skpm_createdAt" = some c := by
  refine ⟨?_, ?_, ?_⟩
  · rw [getKey_upsert, if_neg (by decide), getKey_upsert, if_neg (by decide),
      getKey_upsert, if_pos rfl]
  · rw [getKey_upsert, if_neg (by decide), getKey_upsert, if_pos rfl]
  · rw [getKey_upsert, if_pos rfl]

/-- `project.name` on a freshly built record, before reduction. -/
theorem recordNameKey_objv (props : List (String × Option Json)) :
    recordNameKey (.objv props)
      = match getKey props "name" with
        | some (some v) => jsToString v
        | _ => "undefined" := rfl

theorem recordNameKey_arrv (es : List Json) (props : List (String × Option Json)) :
    recordNameKey (.arrv es props)
      = match getKey props "name" with
        | some (some v) => jsToString v
        | _ => "undefined" := rfl

theorem arrv_props_name_none (m i c : Option Json) :
    getKey (upsert (upsert (upsert ([] : List (String × Option Json))
        "__skpm_manifest" m) "__skpm_icon" i) "__skpm_createdAt" c) "name" = none := by
  rw [getKey_upsert, if_neg (by decide), getKey_upsert, if_neg (by decide),
    getKey_upsert, if_neg (by decide)]
  rfl

/-- The key a loaded record is filed under is the (coerced) `name` field of its
parsed descriptor. -/
theorem loadProjectOpt_nameKey {fs : FSState} {p : String} {r : JsValue}
    (h : loadProjectOpt fs p = some r) :
    ∃ json, loadPackageJson fs p = .ok json ∧ objOrArr json = true
      ∧ recordNameKey r = jsKeyOf (getField json "name") := by
  have hlp : loadProject fs p = .ok r := by
    unfold loadProjectOpt at h
    cases hl : loadProject fs p with
    | ok r' =>
      rw [hl] at h
      have hrr : r' = r := Option.some.inj h
      rw [hrr]
    | rejected e =>
      rw [hl] at h
      exact absurd h (by simp)
    | pending =>
      rw [hl] at h
      exact absurd h (by simp)
  cases hload : loadPackageJson fs p with
  | rejected e =>
    rw [loadProject_err hload] at hlp
    exact absurd hlp (by simp)
  | pending =>
    rw [loadProject_wait hload] at hlp
    exact absurd hlp (by simp)
  | ok json =>
    by_cases hm : loadManifestJson fs p json = .pending
    · rw [loadProject_stall hload hm] at hlp
      exact absurd hlp (by simp)
    · cases hoa : objOrArr json with
      | false =>
        rw [loadProject_prim hload hoa] at hlp
        exact absurd hlp (by simp)
      | true =>
        cases json with
        | obj kvs =>
          rw [loadProject_obj hload hm] at hlp
          have hr := POutcome.ok.inj hlp
          refine ⟨.obj kvs, rfl, rfl, ?_⟩
          rw [← hr, recordNameKey_objv,
            record_getProp_user kvs _ _ _ "name" (by decide) (by decide) (by decide)]
          cases hname : getKey kvs "name" with
          | some v => simp [getField, hname, jsKeyOf]
          | none => simp [getField, hname, jsKeyOf]
        | arr es =>
          rw [loadProject_arr hload hm] at hlp
          have hr := POutcome.ok.inj hlp
          refine ⟨.arr es, rfl, rfl, ?_⟩
          rw [← hr, recordNameKey_arrv, arrv_props_name_none]
          simp [getField, jsKeyOf]
        | null => simp [objOrArr] at hoa
        | bool b => simp [objOrArr] at hoa
        | num n => simp [objOrArr] at hoa
        | str s => simp [objOrArr] at hoa

theorem loadProjectOpt_isSome {fs : FSState} {p : String} {json : Json}
    (h : loadPackageJson fs p = .ok json) (hoa : objOrArr json = true)
    (hm : loadManifestJson fs p json ≠ .pending) :
    ∃ r, loadProjectOpt fs p = some r
      ∧ recordNameKey r = jsKeyOf (getField json "name") := by
  cases hjson : json with
  | obj kvs =>
    subst hjson
    refine ⟨_, by unfold loadProjectOpt; rw [loadProject_obj h hm], ?_⟩
    rw [recordNameKey_objv,
      record_getProp_user kvs _ _ _ "name" (by decide) (by decide) (by decide)]
    cases hname : getKey kvs "name" with
    | some v => simp [getField, hname, jsKeyOf]
    | none => simp [getField, hname, jsKeyOf]
  | arr es =>
    subst hjson
    refine ⟨_, by unfold loadProjectOpt; rw [loadProject_arr h hm], ?_⟩
    rw [recordNameKey_arrv, arrv_props_name_none]
    simp [getField, jsKeyOf]
  | null => subst hjson; simp [objOrArr] at hoa
  | bool b => subst hjson; simp [objOrArr] at hoa
  | num n => subst hjson; simp [objOrArr] at hoa
  | str s => subst hjson; simp [objOrArr] at hoa

/-! ## Input-order characterization of the aggregators -/

/-- Under any covering completion schedule, when every listed project's load
settles, `loadProjects` resolves with the input-order fold of the successfully
loaded records.  (The `asyncMap` error path is unreachable: every per-path
task is caught.) -/
theorem loadProjects_eq (fs : FSState) (paths : List String) {σ : List Nat}
    (hcov : Covers σ paths.length)
    (hsettle : ∀ p ∈ paths, loadProject fs p ≠ .pending) :
    loadProjects fs paths σ
      = .ok ((paths.filterMap (loadProjectOpt fs)).foldl
          (fun m r => upsert m (recordNameKey r) r) []) := by
  have hlen : (paths.map (loadProjectTask fs)).length = paths.length := by simp
  have hres := @asyncMapSched_ok JsErr (Option JsValue)
    (paths.map (loadProjectTask fs)) σ (by rw [hlen]; exact hcov) ?hok
  case hok =>
    intro j hj
    rw [hlen] at hj
    cases hl : loadProject fs paths[j] with
    | ok r =>
      exact ⟨some r, by
        rw [List.getElem?_map, List.getElem?_eq_getElem hj]
        simp [loadProjectTask, hl]⟩
    | rejected e =>
      exact ⟨none, by
        rw [List.getElem?_map, List.getElem?_eq_getElem hj]
        simp [loadProjectTask, hl]⟩
    | pending =>
      exact absurd hl (hsettle paths[j] (List.getElem_mem hj))
  unfold loadProjects
  simp only [hres]
  rw [List.map_map, List.filterMap_map]
  have hfun : ((fun (r : Option (Option JsValue)) => r.bind id)
      ∘ (POutcome.toOption ∘ loadProjectTask fs)) = loadProjectOpt fs := by
    funext p
    cases hl : loadProject fs p <;>
      simp [loadProjectTask, loadProjectOpt, POutcome.toOption, hl]
  rw [hfun]

/-- One listed project whose load never settles keeps every `async/map`
completion from being final: `loadProjects` never settles.  (No covering
hypothesis is needed — the per-path tasks cannot reject.) -/
theorem loadProjects_pending (fs : FSState) (paths : List String) (σ : List Nat)
    {p0 : String} (hp0 : p0 ∈ paths) (hpend : loadProject fs p0 = .pending) :
    loadProjects fs paths σ = .pending := by
  have hnr : ∀ (j : Nat) (e : JsErr),
      (paths.map (loadProjectTask fs))[j]? ≠ some (POutcome.rejected e) := by
    intro j e hje
    rw [List.getElem?_map] at hje
    cases hpj : paths[j]? with
    | none =>
      rw [hpj] at hje
      exact absurd hje (by simp)
    | some q =>
      rw [hpj] at hje
      have hq : loadProjectTask fs q = .rejected e := by simpa using hje
      cases hl : loadProject fs q <;> simp [loadProjectTask, hl] at hq
  obtain ⟨i, hi⟩ := List.getElem?_of_mem hp0
  have hti : (paths.map (loadProjectTask fs))[i]? = some .pending := by
    rw [List.getElem?_map, hi]
    simp [loadProjectTask, hpend]
  have hres := asyncMapSched_pending σ hnr hti
  unfold loadProjects
  simp only [hres]

/-- The per-item outcome that survives into the batch result. -/
def loadedDep (fs : FSState) (projectPath : String) (q : String × String) : Option Dep :=
  match loadProjectDependency fs projectPath q.1 q.2 with
  | .ok (some d) => some d
  | _ => none

theorem toOption_bind_loadedDep (fs : FSState) (p : String) (q : String × String) :
    ((loadProjectDependency fs p q.1 q.2).toOption).bind id = loadedDep fs p q := by
  unfold loadedDep
  cases h : loadProjectDependency fs p q.1 q.2 with
  | rejected e => simp [POutcome.toOption]
  | pending => simp [POutcome.toOption]
  | ok v => cases v <;> simp [POutcome.toOption]

/-- Under a covering schedule with no hard per-item failure,
`loadProjectDependencies` resolves with the input-order list of loaded
records, `null` results filtered out. -/
theorem loadProjectDependencies_ok (fs : FSState) (p : String)
    (deps : List (String × String)) {σ : List Nat} (hcov : Covers σ deps.length)
    (hok : ∀ q ∈ deps, ∃ v, loadProjectDependency fs p q.1 q.2 = .ok v) :
    loadProjectDependencies fs p deps σ = .ok (deps.filterMap (loadedDep fs p)) := by
  have hlen : (deps.map (fun q => loadProjectDependency fs p q.1 q.2)).length
      = deps.length := by simp
  have hres := @asyncMapSched_ok JsErr (Option Dep) (deps.map (fun q =>
      loadProjectDependency fs p q.1 q.2)) σ (by rw [hlen]; exact hcov) ?hok
  case hok =>
    intro j hj
    rw [hlen] at hj
    obtain ⟨v, hv⟩ := hok deps[j] (List.getElem_mem hj)
    exact ⟨v, by rw [List.getElem?_map, List.getElem?_eq_getElem hj]; simp [hv]⟩
  unfold loadProjectDependencies
  simp only [hres]
  rw [List.map_map, List.filterMap_map]
  have hfun : ((fun (r : Option (Option Dep)) => r.bind id) ∘ (POutcome.toOption
      ∘ (fun q => loadProjectDependency fs p q.1 q.2))) = loadedDep fs p := by
    funext q
    exact toOption_bind_loadedDep fs p q
  rw [hfun]

/-- Under a covering schedule, a hard per-item failure aborts the batch with
some item's error. -/
theorem loadProjectDependencies_error (fs : FSState) (p : String)
    (deps : List (String × String)) {σ : List Nat} (hcov : Covers σ deps.length)
    {q : String × String} (hq : q ∈ deps) {e : JsErr}
    (he : loadProjectDependency fs p q.1 q.2 = .rejected e) :
    ∃ e', loadProjectDependencies fs p deps σ = .rejected e'
      ∧ ∃ q' ∈ deps, loadProjectDependency fs p q'.1 q'.2 = .rejected e' := by
  unfold loadProjectDependencies
  have hlen : (deps.map (fun q => loadProjectDependency fs p q.1 q.2)).length
      = deps.length := by simp
  obtain ⟨i, hi⟩ := List.getElem?_of_mem hq
  have hti : (deps.map (fun q => loadProjectDependency fs p q.1 q.2))[i]?
      = some (POutcome.rejected e) := by
    rw [List.getElem?_map, hi]
    simp [he]
  obtain ⟨e', herr, j, hje⟩ := asyncMapSched_error (by rw [hlen]; exact hcov) hti
  rw [herr]
  refine ⟨e', rfl, ?_⟩
  rw [List.getElem?_map] at hje
  cases hdj : deps[j]? with
  | none => rw [hdj] at hje; exact absurd hje (by simp)
  | some q' =>
    rw [hdj] at hje
    obtain ⟨hlt, heq⟩ := List.getElem?_eq_some.mp hdj
    refine ⟨q', by rw [← heq]; exact List.getElem_mem hlt, ?_⟩
    simpa using hje

/-- A queued item whose load never settles — and none that hard-fails — keeps
the batch from ever settling. -/
theorem loadProjectDependencies_pending (fs : FSState) (p : String)
    (deps : List (String × String)) (σ : List Nat)
    (hnr : ∀ q ∈ deps, ∀ e, loadProjectDependency fs p q.1 q.2 ≠ .rejected e)
    {q0 : String × String} (hq0 : q0 ∈ deps)
    (hpend : loadProjectDependency fs p q0.1 q0.2 = .pending) :
    loadProjectDependencies fs p deps σ = .pending := by
  have hnr' : ∀ (j : Nat) (e : JsErr),
      (deps.map (fun q => loadProjectDependency fs p q.1 q.2))[j]?
        ≠ some (POutcome.rejected e) := by
    intro j e hje
    rw [List.getElem?_map] at hje
    cases hdj : deps[j]? with
    | none =>
      rw [hdj] at hje
      exact absurd hje (by simp)
    | some q =>
      rw [hdj] at hje
      have hqr : loadProjectDependency fs p q.1 q.2 = .rejected e := by simpa using hje
      obtain ⟨hlt, heq⟩ := List.getElem?_eq_some.mp hdj
      exact hnr q (heq ▸ List.getElem_mem hlt) e hqr
  obtain ⟨i, hi⟩ := List.getElem?_of_mem hq0
  have hti : (deps.map (fun q => loadProjectDependency fs p q.1 q.2))[i]?
      = some .pending := by
    rw [List.getElem?_map, hi]
    simp [hpend]
  have hres := asyncMapSched_pending σ hnr' hti
  unfold loadProjectDependencies
  simp only [hres]

/-- An empty queue resolves at once with the empty list. -/
theorem loadProjectDependencies_nil (fs : FSState) (p : String) (σ : List Nat) :
    loadProjectDependencies fs p [] σ = .ok [] := by
  unfold loadProjectDependencies asyncMapSched
  rw [show ([] : List (String × String)).map
      (fun q => loadProjectDependency fs p q.1 q.2)
    = ([] : List (POutcome JsErr (Option Dep))) from rfl]
  rw [schedRun_nil_tasks σ (fun _ => none)]
  rfl

/-! ## `pick` and the dependency record -/

theorem getKey_pick (j : Json) (keys : List String) (k : String) :
    getKey (pick j keys) k = if k ∈ keys then getField j k else none := by
  induction keys with
  | nil => simp [pick, getKey]
  | cons k0 ks ih =>
    cases h0 : getField j k0 with
    | none =>
      simp only [pick, h0]
      rw [ih]
      by_cases hk : k = k0
      · subst hk
        simp only [List.mem_cons, true_or, if_pos]
        by_cases hks : k ∈ ks
        · simp [hks]
        · simp [hks, h0]
      · simp [List.mem_cons, hk]
    | some v =>
      simp only [pick, h0]
      by_cases hk : k = k0
      · subst hk
        simp [getKey, h0]
      · have hk' : ¬ (k0 = k) := fun h => hk h.symm
        simp only [getKey, if_neg hk']
        rw [ih]
        simp [List.mem_cons, hk]

theorem getKey_status_location (loc k : String) :
    getKey [("status", Json.str "idle"), ("location", Json.str loc)] k
      = if k = "status" then some (Json.str "idle")
        else if k = "location" then some (Json.str loc) else none := by
  by_cases h1 : k = "status"
  · simp [getKey, h1]
  · by_cases h2 : k = "location"
    · subst h2
      simp [getKey]
    · have hs : ¬ ("status" = k) := fun h => h1 h.symm
      have hl : ¬ ("location" = k) := fun h => h2 h.symm
      simp only [getKey, if_neg hs, if_neg hl, if_neg h1, if_neg h2]

/-- Field-by-field description of a resolved dependency record. -/
theorem getKey_depRecord (j : Json) (loc k : String) :
    getKey (pick j depFields ++ [("status", Json.str "idle"), ("location", Json.str loc)]) k
      = if k ∈ depFields then getField j k
        else if k = "status" then some (Json.str "idle")
        else if k = "location" then some (Json.str loc) else none := by
  rw [getKey_append, getKey_pick, getKey_status_location]
  by_cases hk : k ∈ depFields
  · simp only [hk, if_pos]
    have hs : k ≠ "status" := by
      intro h
      subst h
      revert hk
      decide
    have hl : k ≠ "location" := by
      intro h
      subst h
      revert hk
      decide
    rw [if_neg hs, if_neg hl]
    simp
  · simp [hk]

/-- The dependency fold keys an entry by the installed descriptor's `name`
field (coerced), not by the declared name. -/
theorem depNameKey_record (j : Json) (loc : String) :
    depNameKey (pick j depFields ++ [("status", Json.str "idle"), ("location", Json.str loc)])
      = jsKeyOf (getField j "name") := by
  unfold depNameKey
  rw [getKey_depRecord]
  rw [if_pos (show "name" ∈ depFields by decide)]

theorem loadProjectDependency_read_ok {fs : FSState} {p n : String} (loc : String)
    {data : String} (hf : fs.file (depPath p n) = .ok data) :
    loadProjectDependency fs p n loc
      = match parseJson data with
        | none => .pending
        | some pkg => .ok (some (pick pkg depFields
            ++ [("status", Json.str "idle"), ("location", Json.str loc)])) := by
  unfold loadProjectDependency
  rw [hf]

theorem loadProjectDependency_read_err {fs : FSState} {p n : String} (loc : String)
    {code : String} (hf : fs.file (depPath p n) = .err code) :
    loadProjectDependency fs p n loc
      = if code = "ENOENT" then .ok none else .rejected (.io code) := by
  unfold loadProjectDependency
  rw [hf]

theorem loadedDep_eq_some {fs : FSState} {p : String} {q : String × String} {d : Dep} :
    loadedDep fs p q = some d
      ↔ ∃ s j, fs.file (depPath p q.1) = .ok s ∧ parseJson s = some j
          ∧ d = pick j depFields
              ++ [("status", Json.str "idle"), ("location", Json.str q.2)] := by
  unfold loadedDep
  cases hf : fs.file (depPath p q.1) with
  | err code =>
    rw [loadProjectDependency_read_err q.2 hf]
    constructor
    · intro h
      by_cases hc : code = "ENOENT"
      · rw [if_pos hc] at h
        exact absurd (h : (none : Option Dep) = some d) (by simp)
      · rw [if_neg hc] at h
        exact absurd (h : (none : Option Dep) = some d) (by simp)
    · rintro ⟨s, j, hs, -, -⟩
      exact absurd hs (by simp)
  | ok data =>
    rw [loadProjectDependency_read_ok q.2 hf]
    cases hp : parseJson data with
    | none =>
      constructor
      · intro h
        exact absurd (h : (none : Option Dep) = some d) (by simp)
      · rintro ⟨s, j, hs, hj, -⟩
        have hsd : s = data := (FileResult.ok.inj hs).symm
        subst hsd
        rw [hp] at hj
        exact absurd hj (by simp)
    | some pkg =>
      constructor
      · intro h
        have h' : some (pick pkg depFields
            ++ [("status", Json.str "idle"), ("location", Json.str q.2)]) = some d := h
        exact ⟨data, pkg, rfl, hp, (Option.some.inj h').symm⟩
      · rintro ⟨s, j, hs, hj, hd⟩
        have hsd : s = data := (FileResult.ok.inj hs).symm
        subst hsd
        rw [hp] at hj
        have hjp : j = pkg := (Option.some.inj hj).symm
        subst hjp
        show some (pick j depFields
            ++ [("status", Json.str "idle"), ("location", Json.str q.2)]) = some d
        rw [hd]

/-- The `location` carried by a resolved record is the queue tag it was loaded
with. -/
theorem loadedDep_location {fs : FSState} {p : String} {q : String × String} {d : Dep}
    (h : loadedDep fs p q = some d) :
    getKey d "location" = some (Json.str q.2) := by
  obtain ⟨s, j, -, -, hd⟩ := loadedDep_eq_some.mp h
  rw [hd, getKey_depRecord]
  rw [if_neg (show "location" ∉ depFields by decide), if_neg (by decide), if_pos rfl]

theorem loadedDep_nameKey {fs : FSState} {p : String} {q : String × String} {d : Dep}
    (h : loadedDep fs p q = some d) :
    ∃ s j, fs.file (depPath p q.1) = .ok s ∧ parseJson s = some j
      ∧ depNameKey d = jsKeyOf (getField j "name") := by
  obtain ⟨s, j, hs, hj, hd⟩ := loadedDep_eq_some.mp h
  exact ⟨s, j, hs, hj, by rw [hd, depNameKey_record]⟩

theorem loadAllProjectDependencies_ok {fs : FSState} {p : String} {σ : List Nat}
    {pkg : Json} (hpkg : loadPackageJson fs p = .ok pkg) (hnull : pkg ≠ Json.null)
    (hcov : Covers σ (queueOf pkg).length)
    (hok : ∀ q ∈ queueOf pkg, ∃ v, loadProjectDependency fs p q.1 q.2 = .ok v) :
    loadAllProjectDependencies fs p σ
      = .ok (((queueOf pkg).filterMap (loadedDep fs p)).foldl
          (fun m d => upsert m (depNameKey d) d) []) := by
  unfold loadAllProjectDependencies
  simp only [hpkg]
  rw [if_neg hnull]
  simp only [loadProjectDependencies_ok fs p (queueOf pkg) hcov hok]

/-- A descriptor that parsed to JSON `null` makes the queue construction's
member access throw inside the executor: the promise rejects with a
`TypeError`. -/
theorem loadAllProjectDependencies_null {fs : FSState} {p : String} {σ : List Nat}
    (hpkg : loadPackageJson fs p = .ok Json.null) :
    loadAllProjectDependencies fs p σ = .rejected .typeError := by
  unfold loadAllProjectDependencies
  simp only [hpkg]
  simp

theorem loadAllProjectDependencies_pending {fs : FSState} {p : String} {σ : List Nat}
    {pkg : Json} {e : JsErr} (hpkg : loadPackageJson fs p = .ok pkg)
    (hnull : pkg ≠ Json.null)
    (herr : loadProjectDependencies fs p (queueOf pkg) σ = .rejected e) :
    loadAllProjectDependencies fs p σ = .pending := by
  unfold loadAllProjectDependencies
  simp only [hpkg]
  rw [if_neg hnull]
  simp only [herr]

/-- A batch that never settles leaves the aggregator's promise pending too. -/
theorem loadAllProjectDependencies_stall {fs : FSState} {p : String} {σ : List Nat}
    {pkg : Json} (hpkg : loadPackageJson fs p = .ok pkg)
    (hnull : pkg ≠ Json.null)
    (hpend : loadProjectDependencies fs p (queueOf pkg) σ = .pending) :
    loadAllProjectDependencies fs p σ = .pending := by
  unfold loadAllProjectDependencies
  simp only [hpkg]
  rw [if_neg hnull]
  simp only [hpend]

/-- The dependency queue splits into the `dependencies` segment followed by the
`devDependencies` segment, whose items are all tagged `devDependencies`. -/
theorem queueOf_decomp (pkg : Json) :
    queueOf pkg
      = (objKeys (orEmptyObj (getField pkg "dependencies"))).map
          (fun name =>
            (name, if (objKeys (orEmptyObj (getField pkg "devDependencies"))).contains name
              then "devDependencies" else "dependencies"))
        ++ (objKeys (orEmptyObj (getField pkg "devDependencies"))).map
            (fun name => (name, "devDependencies")) := by
  unfold queueOf
  rw [List.map_append]
  congr 1
  apply List.map_congr_left
  intro n hn
  have : (objKeys (orEmptyObj (getField pkg "devDependencies"))).contains n = true := by
    exact List.elem_eq_true_of_mem hn
  rw [this]
  simp

/-! ## Claim C1 -/

/-- The property of claim C1 as stated: for every set of project paths, the
mapping `loadProjects` returns has as key set exactly the (coerced) `name`s of
the projects whose descriptor is present and parseable. -/
def ClaimC1 (fs : FSState) (paths : List String) (σ : List Nat) : Prop :=
  ∀ m, loadProjects fs paths σ = .ok m →
    ∀ k, ((getKey m k).isSome ↔ ∃ p ∈ paths, ∃ json,
      loadPackageJson fs p = .ok json ∧ jsKeyOf (getField json "name") = k)

/-- One project whose descriptor file holds the JSON text `null`. -/
def c1fs : FSState where
  file := fun p => if p = "Q/package.json" then .ok "null" else .err "ENOENT"
  stat := fun _ => .err "ENOENT"
  writeErr := fun _ => none

/-- C1 (counterexample): a descriptor file containing `null` is present and
parseable, yet the project is excluded from the mapping — the reserved-key
assignment in `loadProject` throws on a non-object — so the claimed key-set
equality fails. -/
theorem c1_counterexample : ¬ ClaimC1 c1fs ["Q"] [0] := by
  intro h
  have h0 := h [] rfl "undefined"
  have hex : ∃ p ∈ ["Q"], ∃ json,
      loadPackageJson c1fs p = .ok json ∧ jsKeyOf (getField json "name") = "undefined" :=
    ⟨"Q", by simp, Json.null, rfl, rfl⟩
  have hsome := h0.mpr hex
  simp [getKey] at hsome

/-- C1 (amended): under every covering completion order, **when every listed
project's load settles**, `loadProjects` resolves, never rejects, and its key
set is exactly the (coerced) `name`s of the projects whose descriptor is
present and parses **to an object or array**; a descriptor whose read fails —
or which parses to `null` or another primitive, on which the merge's property
assignment throws — is silently excluded.  But a present descriptor (or a
referenced manifest file) that does not parse makes that project's load — and
`loadProjects` itself — never settle: the parse throw in the `fs.readFile`
callback is uncaught, so no mapping and no error is ever produced. -/
theorem c1_loadProjects_key_set (fs : FSState) (paths : List String) (σ : List Nat)
    (hσ : σ.Perm (List.range paths.length)) :
    ((∀ p ∈ paths, loadProject fs p ≠ .pending) →
      ∃ m, loadProjects fs paths σ = .ok m
        ∧ ∀ k, ((getKey m k).isSome ↔ ∃ p ∈ paths, ∃ json,
            loadPackageJson fs p = .ok json ∧ objOrArr json = true
              ∧ jsKeyOf (getField json "name") = k))
    ∧ (∀ p ∈ paths, loadProject fs p = .pending →
        loadProjects fs paths σ = .pending) := by
  have hcov : Covers σ paths.length := fun i hi => hσ.mem_iff.mpr (List.mem_range.mpr hi)
  constructor
  · intro hsettle
    refine ⟨_, loadProjects_eq fs paths hcov hsettle, ?_⟩
    intro k
    rw [getKey_foldl_isSome]
    constructor
    · rintro ⟨r, hr, hkey⟩
      obtain ⟨p, hp, hload⟩ := List.mem_filterMap.mp hr
      obtain ⟨json, hjson, hoa, hname⟩ := loadProjectOpt_nameKey hload
      exact ⟨p, hp, json, hjson, hoa, by rw [← hname, hkey]⟩
    · rintro ⟨p, hp, json, hjson, hoa, hname⟩
      have hm : loadManifestJson fs p json ≠ .pending := by
        intro hm
        exact hsettle p hp (loadProject_stall hjson hm)
      obtain ⟨r, hr, hkeyr⟩ := loadProjectOpt_isSome hjson hoa hm
      exact ⟨r, List.mem_filterMap.mpr ⟨p, hp, hr⟩, by rw [hkeyr, hname]⟩
  · intro p hp hpend
    exact loadProjects_pending fs paths σ hp hpend

/-- One well-formed project. -/
def c1wfs : FSState where
  file := fun p => if p = "A/package.json" then .ok "\x7b\"name\": \"a\"\x7d" else .err "ENOENT"
  stat := fun _ => .err "ENOENT"
  writeErr := fun _ => none

/-- C1 (witness): the amended characterization at a one-project filesystem. -/
theorem c1_witness :
    List.Perm [0] (List.range (["A"] : List String).length)
    ∧ (((∀ p ∈ (["A"] : List String), loadProject c1wfs p ≠ .pending) →
        ∃ m, loadProjects c1wfs ["A"] [0] = .ok m
          ∧ ∀ k, ((getKey m k).isSome ↔ ∃ p ∈ (["A"] : List String), ∃ json,
              loadPackageJson c1wfs p = .ok json ∧ objOrArr json = true
                ∧ jsKeyOf (getField json "name") = k))
      ∧ (∀ p ∈ (["A"] : List String), loadProject c1wfs p = .pending →
          loadProjects c1wfs ["A"] [0] = .pending)) :=
  ⟨by decide, c1_loadProjects_key_set c1wfs ["A"] [0] (by decide)⟩

/-! ## Claim C2 -/

/-- C2: `loadProjectDependency` resolves to `null` exactly when the installed
descriptor read fails with the not-found class (`ENOENT`); any other I/O
failure of that read rejects with that error. -/
theorem c2_loadProjectDependency_enoent (fs : FSState)
    (projectPath dependencyName dependencyLocation : String) :
    (loadProjectDependency fs projectPath dependencyName dependencyLocation = .ok none
      ↔ fs.file (depPath projectPath dependencyName) = .err "ENOENT")
    ∧ ∀ code, code ≠ "ENOENT" →
        fs.file (depPath projectPath dependencyName) = .err code →
        loadProjectDependency fs projectPath dependencyName dependencyLocation
          = .rejected (.io code) := by
  constructor
  · constructor
    · intro h
      cases hf : fs.file (depPath projectPath dependencyName) with
      | err code =>
        by_cases hc : code = "ENOENT"
        · rw [hc]
        · rw [loadProjectDependency_read_err dependencyLocation hf, if_neg hc] at h
          exact absurd h (by simp)
      | ok data =>
        rw [loadProjectDependency_read_ok dependencyLocation hf] at h
        cases hp : parseJson data with
        | none =>
          rw [hp] at h
          exact absurd h (by simp)
        | some pkg =>
          rw [hp] at h
          exact absurd (POutcome.ok.inj h) (by simp)
    · intro h
      rw [loadProjectDependency_read_err dependencyLocation h, if_pos rfl]
  · intro code hc h
    rw [loadProjectDependency_read_err dependencyLocation h, if_neg hc]

/-- A project with one missing and one unreadable installed dependency. -/
def c2fs : FSState where
  file := fun p =>
    if p = "P/node_modules/locked/package.json" then .err "EACCES" else .err "ENOENT"
  stat := fun _ => .err "ENOENT"
  writeErr := fun _ => none

/-- C2 (witness): a missing installed descriptor resolves to `null`; a
permission failure rejects with that error. -/
theorem c2_witness :
    loadProjectDependency c2fs "P" "missing" "dependencies" = .ok none
    ∧ loadProjectDependency c2fs "P" "locked" "dependencies"
        = .rejected (.io "EACCES") :=
  ⟨(c2_loadProjectDependency_enoent c2fs "P" "missing" "dependencies").1.mpr rfl,
   (c2_loadProjectDependency_enoent c2fs "P" "locked" "dependencies").2 "EACCES"
     (by decide) rfl⟩

/-! ## Claim C3 -/

/-- The property of claim C3 as stated: the key set of the map
`loadAllProjectDependencies` resolves with is exactly the declared dependency
names whose installed descriptor file exists and is readable. -/
def ClaimC3 (fs : FSState) (p : String) (σ : List Nat) : Prop :=
  ∀ m, loadAllProjectDependencies fs p σ = .ok m →
    ∀ k, ((getKey m k).isSome = true ↔ ∃ pkg, loadPackageJson fs p = .ok pkg
      ∧ ∃ q ∈ queueOf pkg, q.1 = k ∧ ∃ s, fs.file (depPath p q.1) = .ok s)

/-- A project declaring `foo`, whose installed descriptor names itself `bar`. -/
def c3fs : FSState where
  file := fun q =>
    if q = "P/package.json" then .ok "\x7b\"dependencies\": \x7b\"foo\": \"1\"\x7d\x7d"
    else if q = "P/node_modules/foo/package.json" then .ok "\x7b\"name\": \"bar\"\x7d"
    else .err "ENOENT"
  stat := fun _ => .err "ENOENT"
  writeErr := fun _ => none

/-- The parsed descriptor of the `c3fs` project. -/
def c3pkg : Json := .obj [("dependencies", .obj [("foo", .str "1")])]

/-- C3 (counterexample): dependency `foo` is declared and its installed
descriptor exists and is readable, yet the resolved map has no `foo` key — the
fold keys each entry by the installed descriptor's own `name` field (`bar`
here), not by the declared name. -/
theorem c3_counterexample : ¬ ClaimC3 c3fs "P" [0] := by
  intro h
  have h0 := h _ rfl "foo"
  have hsome := h0.mpr ⟨c3pkg, rfl, ("foo", "dependencies"), by decide, rfl,
    "\x7b\"name\": \"bar\"\x7d", rfl⟩
  exact absurd hsome (by decide)

/-- C3 (amended): under a covering completion order, when the descriptor is
readable, parses to a non-`null` value and no per-item load hard-fails or
hangs, the key set of the resolved map is exactly the set of (coerced) `name`
fields of the installed descriptors that exist, are readable and parse — the
installed name, not the declared name.  An installed descriptor that exists
but does not parse makes its item's promise — and the whole aggregation —
never settle (not an exclusion, not a rejection); a descriptor parsing to
JSON `null` rejects the aggregation with a `TypeError` from the queue
construction's member access. -/
theorem c3_loadAllProjectDependencies_key_set (fs : FSState) (p : String)
    (σ : List Nat) {pkg : Json} (hpkg : loadPackageJson fs p = .ok pkg)
    (hσ : σ.Perm (List.range (queueOf pkg).length)) :
    (pkg = Json.null → loadAllProjectDependencies fs p σ = .rejected .typeError)
    ∧ (pkg ≠ Json.null →
        ((∀ q ∈ queueOf pkg, ∃ v, loadProjectDependency fs p q.1 q.2 = .ok v) →
          ∃ m, loadAllProjectDependencies fs p σ = .ok m
            ∧ ∀ k, ((getKey m k).isSome = true ↔ ∃ q ∈ queueOf pkg, ∃ s j,
                fs.file (depPath p q.1) = .ok s ∧ parseJson s = some j
                  ∧ jsKeyOf (getField j "name") = k))
        ∧ ((∀ q ∈ queueOf pkg, ∀ e, loadProjectDependency fs p q.1 q.2 ≠ .rejected e) →
            ∀ q0 ∈ queueOf pkg, loadProjectDependency fs p q0.1 q0.2 = .pending →
            loadAllProjectDependencies fs p σ = .pending)) := by
  have hcov : Covers σ (queueOf pkg).length :=
    fun i hi => hσ.mem_iff.mpr (List.mem_range.mpr hi)
  refine ⟨?_, fun hnull => ⟨?_, ?_⟩⟩
  · intro hn
    subst hn
    exact loadAllProjectDependencies_null hpkg
  · intro hok
    refine ⟨_, loadAllProjectDependencies_ok hpkg hnull hcov hok, ?_⟩
    intro k
    rw [getKey_foldl_isSome]
    constructor
    · rintro ⟨d, hd, hkey⟩
      obtain ⟨q, hq, hld⟩ := List.mem_filterMap.mp hd
      obtain ⟨s, j, hs, hj, hname⟩ := loadedDep_nameKey hld
      exact ⟨q, hq, s, j, hs, hj, by rw [← hname, hkey]⟩
    · rintro ⟨q, hq, s, j, hs, hj, hname⟩
      refine ⟨pick j depFields ++ [("status", .str "idle"), ("location", .str q.2)],
        List.mem_filterMap.mpr ⟨q, hq, loadedDep_eq_some.mpr ⟨s, j, hs, hj, rfl⟩⟩, ?_⟩
      rw [depNameKey_record, hname]
  · intro hnr q0 hq0 hpend
    exact loadAllProjectDependencies_stall hpkg hnull
      (loadProjectDependencies_pending fs p (queueOf pkg) σ hnr hq0 hpend)

/-- C3 (witness): the amended characterization at the `c3fs` filesystem, whose
single dependency surfaces under key `bar`. -/
theorem c3_witness :
    loadPackageJson c3fs "P" = .ok c3pkg
    ∧ List.Perm [0] (List.range (queueOf c3pkg).length)
    ∧ ((c3pkg = Json.null →
        loadAllProjectDependencies c3fs "P" [0] = .rejected .typeError)
      ∧ (c3pkg ≠ Json.null →
          ((∀ q ∈ queueOf c3pkg, ∃ v, loadProjectDependency c3fs "P" q.1 q.2 = .ok v) →
            ∃ m, loadAllProjectDependencies c3fs "P" [0] = .ok m
              ∧ ∀ k, ((getKey m k).isSome = true ↔ ∃ q ∈ queueOf c3pkg, ∃ s j,
                  c3fs.file (depPath "P" q.1) = .ok s ∧ parseJson s = some j
                    ∧ jsKeyOf (getField j "name") = k))
          ∧ ((∀ q ∈ queueOf c3pkg, ∀ e,
                loadProjectDependency c3fs "P" q.1 q.2 ≠ .rejected e) →
              ∀ q0 ∈ queueOf c3pkg, loadProjectDependency c3fs "P" q0.1 q0.2 = .pending →
              loadAllProjectDependencies c3fs "P" [0] = .pending))) :=
  ⟨rfl, by decide,
    c3_loadAllProjectDependencies_key_set c3fs "P" [0] rfl (by decide)⟩

/-! ## Claim C4 -/

/-- The property of claim C4's abort side as stated: any single item failing
with a non-not-found error makes the whole batch reject, propagating an error
to the caller.  Instantiated at the ParseError failure class: an installed
descriptor that reads but does not parse. -/
def ClaimC4 (fs : FSState) (p : String) (deps : List (String × String))
    (σ : List Nat) : Prop :=
  ∀ q ∈ deps, ∀ s, fs.file (depPath p q.1) = .ok s → parseJson s = none →
    ∃ e, loadProjectDependencies fs p deps σ = .rejected e

/-- One declared dependency whose installed descriptor holds unparseable
text. -/
def c4pfs : FSState where
  file := fun q =>
    if q = "P/node_modules/bad/package.json" then .ok "nope" else .err "ENOENT"
  stat := fun _ => .err "ENOENT"
  writeErr := fun _ => none

/-- C4 (counterexample): an unparseable installed descriptor is a
non-not-found per-item failure, yet the batch does not reject — the parse
throw in the `fs.readFile` callback never settles the item's promise, so the
batch never settles and nothing propagates to the caller. -/
theorem c4_counterexample :
    ¬ ClaimC4 c4pfs "P" [("bad", "dependencies")] [0] := by
  intro h
  obtain ⟨e, he⟩ := h ("bad", "dependencies") (by decide) "nope" rfl rfl
  have he' : (POutcome.pending : POutcome JsErr (List Dep))
      = POutcome.rejected e := he
  exact POutcome.noConfusion he'

/-- C4 (amended): under a covering completion order, a batch whose items all
settle successfully resolves with the input-order records, `null` (not-found)
results filtered out; any item rejecting (a non-`ENOENT` I/O error) aborts the
whole batch, which rejects with one of the items' errors rather than
returning a partial result; but an item whose read succeeds and whose parse
fails never settles, so the batch never settles either — no error ever
propagates to the caller for the ParseError class. -/
theorem c4_loadProjectDependencies_batch (fs : FSState) (p : String)
    (deps : List (String × String)) (σ : List Nat)
    (hσ : σ.Perm (List.range deps.length)) :
    ((∀ q ∈ deps, ∃ v, loadProjectDependency fs p q.1 q.2 = .ok v) →
        loadProjectDependencies fs p deps σ = .ok (deps.filterMap (loadedDep fs p)))
    ∧ (∀ q ∈ deps, ∀ e, loadProjectDependency fs p q.1 q.2 = POutcome.rejected e →
        ∃ e', loadProjectDependencies fs p deps σ = .rejected e'
          ∧ ∃ q' ∈ deps, loadProjectDependency fs p q'.1 q'.2 = POutcome.rejected e')
    ∧ ((∀ q ∈ deps, ∀ e, loadProjectDependency fs p q.1 q.2 ≠ POutcome.rejected e) →
        ∀ q0 ∈ deps, loadProjectDependency fs p q0.1 q0.2 = .pending →
        loadProjectDependencies fs p deps σ = .pending) := by
  have hcov : Covers σ deps.length := fun i hi => hσ.mem_iff.mpr (List.mem_range.mpr hi)
  exact ⟨fun hok => loadProjectDependencies_ok fs p deps hcov hok,
    fun _ hq _ he => loadProjectDependencies_error fs p deps hcov hq he,
    fun hnr q0 hq0 hpend =>
      loadProjectDependencies_pending fs p deps σ hnr hq0 hpend⟩

/-- A project with one loadable and one missing installed dependency. -/
def c4fs : FSState where
  file := fun q =>
    if q = "P/node_modules/a/package.json" then .ok "\x7b\"name\": \"a\"\x7d"
    else .err "ENOENT"
  stat := fun _ => .err "ENOENT"
  writeErr := fun _ => none

/-- C4 (witness): the batch characterization at a two-item queue. -/
theorem c4_witness :
    List.Perm [1, 0] (List.range
      ([("a", "dependencies"), ("missing", "dependencies")]
        : List (String × String)).length)
    ∧ (((∀ q ∈ ([("a", "dependencies"), ("missing", "dependencies")]
            : List (String × String)),
          ∃ v, loadProjectDependency c4fs "P" q.1 q.2 = .ok v) →
        loadProjectDependencies c4fs "P"
            [("a", "dependencies"), ("missing", "dependencies")] [1, 0]
          = .ok (([("a", "dependencies"), ("missing", "dependencies")]
              : List (String × String)).filterMap (loadedDep c4fs "P")))
      ∧ (∀ q ∈ ([("a", "dependencies"), ("missing", "dependencies")]
            : List (String × String)),
          ∀ e, loadProjectDependency c4fs "P" q.1 q.2 = POutcome.rejected e →
          ∃ e', loadProjectDependencies c4fs "P"
              [("a", "dependencies"), ("missing", "dependencies")] [1, 0]
            = .rejected e'
            ∧ ∃ q' ∈ ([("a", "dependencies"), ("missing", "dependencies")]
                : List (String × String)),
                loadProjectDependency c4fs "P" q'.1 q'.2 = POutcome.rejected e')
      ∧ ((∀ q ∈ ([("a", "dependencies"), ("missing", "dependencies")]
            : List (String × String)),
          ∀ e, loadProjectDependency c4fs "P" q.1 q.2 ≠ POutcome.rejected e) →
          ∀ q0 ∈ ([("a", "dependencies"), ("missing", "dependencies")]
            : List (String × String)),
            loadProjectDependency c4fs "P" q0.1 q0.2 = .pending →
          loadProjectDependencies c4fs "P"
              [("a", "dependencies"), ("missing", "dependencies")] [1, 0] = .pending)) :=
  ⟨by decide, c4_loadProjectDependencies_batch c4fs "P"
    [("a", "dependencies"), ("missing", "dependencies")] [1, 0] (by decide)⟩

/-! ## Claim C5 -/

/-- C5: a dependency name declared in both `dependencies` and
`devDependencies` yields a resolved entry (under its installed descriptor's
name key) whose `location` is `devDependencies`: every queue item carrying that
tag sits in or after the `devDependencies` segment, so whichever record wins
the fold for that key is devDependencies-tagged. -/
theorem c5_duplicate_location_devDependencies (fs : FSState) (p : String)
    (σ : List Nat) {pkg : Json} (hpkg : loadPackageJson fs p = .ok pkg)
    (hσ : σ.Perm (List.range (queueOf pkg).length))
    (hok : ∀ q ∈ queueOf pkg, ∃ v, loadProjectDependency fs p q.1 q.2 = .ok v)
    {name : String}
    (hdep : name ∈ objKeys (orEmptyObj (getField pkg "dependencies")))
    (hdev : name ∈ objKeys (orEmptyObj (getField pkg "devDependencies")))
    {s : String} {j : Json} (hs : fs.file (depPath p name) = .ok s)
    (hj : parseJson s = some j) :
    ∃ m d, loadAllProjectDependencies fs p σ = .ok m
      ∧ getKey m (jsKeyOf (getField j "name")) = some d
      ∧ getKey d "location" = some (Json.str "devDependencies") := by
  have hcov : Covers σ (queueOf pkg).length :=
    fun i hi => hσ.mem_iff.mpr (List.mem_range.mpr hi)
  have hnull : pkg ≠ Json.null := by
    intro he
    subst he
    exact absurd hdev (List.not_mem_nil name)
  have hm := loadAllProjectDependencies_ok hpkg hnull hcov hok
  set k := jsKeyOf (getField j "name") with hk
  set B := (objKeys (orEmptyObj (getField pkg "devDependencies"))).map
    (fun n => (n, "devDependencies")) with hB
  set A := (objKeys (orEmptyObj (getField pkg "dependencies"))).map
    (fun n =>
      (n, if (objKeys (orEmptyObj (getField pkg "devDependencies"))).contains n
        then "devDependencies" else "dependencies")) with hA
  have hqAB : queueOf pkg = A ++ B := queueOf_decomp pkg
  -- the duplicate's devDependencies-segment record
  have hq0 : (name, "devDependencies") ∈ B := by
    rw [hB]
    exact List.mem_map.mpr ⟨name, hdev, rfl⟩
  have hd0 : loadedDep fs p (name, "devDependencies")
      = some (pick j depFields
        ++ [("status", Json.str "idle"), ("location", Json.str "devDependencies")]) :=
    loadedDep_eq_some.mpr ⟨s, j, hs, hj, rfl⟩
  -- the winning record for key k comes from the devDependencies segment
  have hfound : ((B.filterMap (loadedDep fs p)).reverse.find?
      (fun d => depNameKey d == k)).isSome = true := by
    rw [List.find?_isSome]
    refine ⟨_, List.mem_reverse.mpr (List.mem_filterMap.mpr
      ⟨(name, "devDependencies"), hq0, hd0⟩), ?_⟩
    simp [depNameKey_record, hk]
  obtain ⟨d, hfind⟩ := Option.isSome_iff_exists.mp hfound
  have hdB : d ∈ B.filterMap (loadedDep fs p) :=
    List.mem_reverse.mp (List.mem_of_find?_eq_some hfind)
  obtain ⟨q, hqB, hqd⟩ := List.mem_filterMap.mp hdB
  have hq2 : q.2 = "devDependencies" := by
    rw [hB] at hqB
    obtain ⟨n, -, hn⟩ := List.mem_map.mp hqB
    rw [← hn]
  refine ⟨_, d, hm, ?_, ?_⟩
  · rw [getKey_foldl_upsertBy, hqAB, List.filterMap_append, List.reverse_append,
      List.find?_append, hfind]
    rfl
  · rw [loadedDep_location hqd, hq2]

/-- A project declaring `dup` in both sections, with `dup` installed. -/
def c5fs : FSState where
  file := fun q =>
    if q = "P/package.json" then
      .ok "\x7b\"dependencies\": \x7b\"dup\": \"1\"\x7d, \"devDependencies\": \x7b\"dup\": \"1\"\x7d\x7d"
    else if q = "P/node_modules/dup/package.json" then .ok "\x7b\"name\": \"dup\"\x7d"
    else .err "ENOENT"
  stat := fun _ => .err "ENOENT"
  writeErr := fun _ => none

/-- The parsed descriptor of the `c5fs` project. -/
def c5pkg : Json :=
  .obj [("dependencies", .obj [("dup", .str "1")]),
        ("devDependencies", .obj [("dup", .str "1")])]

/-- The parsed installed descriptor of `dup`. -/
def c5dep : Json := .obj [("name", .str "dup")]

/-- C5 (witness): the duplicate-name classification at the `c5fs` project. -/
theorem c5_witness :
    loadPackageJson c5fs "P" = .ok c5pkg
    ∧ List.Perm [0, 1] (List.range (queueOf c5pkg).length)
    ∧ (∀ q ∈ queueOf c5pkg, ∃ v, loadProjectDependency c5fs "P" q.1 q.2 = .ok v)
    ∧ "dup" ∈ objKeys (orEmptyObj (getField c5pkg "dependencies"))
    ∧ "dup" ∈ objKeys (orEmptyObj (getField c5pkg "devDependencies"))
    ∧ c5fs.file (depPath "P" "dup") = .ok "\x7b\"name\": \"dup\"\x7d"
    ∧ parseJson "\x7b\"name\": \"dup\"\x7d" = some c5dep
    ∧ ∃ m d, loadAllProjectDependencies c5fs "P" [0, 1] = .ok m
        ∧ getKey m (jsKeyOf (getField c5dep "name")) = some d
        ∧ getKey d "location" = some (Json.str "devDependencies") := by
  have hok : ∀ q ∈ queueOf c5pkg, ∃ v, loadProjectDependency c5fs "P" q.1 q.2 = .ok v := by
    intro q hq
    have hq' : q = ("dup", "devDependencies") := by
      have hm : q ∈ [(("dup" : String), ("devDependencies" : String)),
        ("dup", "devDependencies")] := hq
      simpa using hm
    subst hq'
    exact ⟨_, rfl⟩
  have hpkg : loadPackageJson c5fs "P" = .ok c5pkg := rfl
  have hs : c5fs.file (depPath "P" "dup") = .ok "\x7b\"name\": \"dup\"\x7d" := rfl
  have hj : parseJson "\x7b\"name\": \"dup\"\x7d" = some c5dep := rfl
  exact ⟨hpkg, by decide, hok, by decide, by decide, hs, hj,
    c5_duplicate_location_devDependencies c5fs "P" [0, 1] hpkg (by decide) hok
      (by decide) (by decide) hs hj⟩

/-! ## Claim C6 -/

/-- C6: writing a descriptor and reading it back round-trips: when the write
succeeds, the file then holds `JSON.stringify(x, null, 2)` and
`loadPackageJson` parses it back to a value deep-equal to `x`. -/
theorem c6_write_read_roundtrip (fs : FSState) (p : String) (x : Json)
    (hwf : Json.wf x = true) (hw : fs.writeErr (pkgPath p) = none) :
    ∃ fs', writePackageJson fs p x = .ok (fs', x)
      ∧ loadPackageJson fs' p = .ok x := by
  have hread : ∀ g : FSState, g.file (pkgPath p) = .ok (stringifyJson x) →
      loadPackageJson g p = .ok x := by
    intro g hg
    unfold loadPackageJson
    rw [hg]
    simp only [parseJson_stringifyJson hwf]
  refine ⟨FSState.mk (fun q => if q = pkgPath p then .ok (stringifyJson x) else fs.file q)
    fs.stat fs.writeErr, ?_, hread _ ?_⟩
  · simp only [writePackageJson, hw]
  · simp

/-- An empty filesystem accepting writes. -/
def c6fs : FSState where
  file := fun _ => .err "ENOENT"
  stat := fun _ => .err "ENOENT"
  writeErr := fun _ => none

/-- C6 (witness): the round-trip at a small concrete descriptor. -/
theorem c6_witness :
    Json.wf (Json.obj [("name", Json.str "a"), ("version", Json.str "1.0.0")]) = true
    ∧ c6fs.writeErr (pkgPath "A") = none
    ∧ ∃ fs', writePackageJson c6fs "A"
          (Json.obj [("name", Json.str "a"), ("version", Json.str "1.0.0")])
        = .ok (fs', Json.obj [("name", Json.str "a"), ("version", Json.str "1.0.0")])
      ∧ loadPackageJson fs' "A"
        = .ok (Json.obj [("name", Json.str "a"), ("version", Json.str "1.0.0")]) :=
  ⟨by decide, rfl, c6_write_read_roundtrip c6fs "A"
    (Json.obj [("name", Json.str "a"), ("version", Json.str "1.0.0")]) (by decide) rfl⟩

/-! ## Claim C7 -/

/-- C7: a readable, parseable installed descriptor yields exactly the seven
projected fields (absent ones staying absent), plus `status = "idle"` and the
supplied `location`; no other descriptor field is carried over. -/
theorem c7_dependency_record_fields (fs : FSState) (p n loc : String)
    {s : String} {j : Json} (hs : fs.file (depPath p n) = .ok s)
    (hj : parseJson s = some j) :
    ∃ d, loadProjectDependency fs p n loc = .ok (some d)
      ∧ ∀ k, getKey d k
          = if k ∈ depFields then getField j k
            else if k = "status" then some (Json.str "idle")
            else if k = "location" then some (Json.str loc) else none := by
  refine ⟨pick j depFields ++ [("status", Json.str "idle"), ("location", Json.str loc)],
    ?_, getKey_depRecord j loc⟩
  rw [loadProjectDependency_read_ok loc hs]
  simp only [hj]

/-- One installed descriptor carrying an extra, non-projected field. -/
def c7fs : FSState where
  file := fun q =>
    if q = "P/node_modules/foo/package.json" then
      .ok "\x7b\"name\": \"foo\", \"version\": \"1.2.0\", \"license\": \"MIT\", \"extra\": 1\x7d"
    else .err "ENOENT"
  stat := fun _ => .err "ENOENT"
  writeErr := fun _ => none

/-- The parsed installed descriptor of `foo` under `c7fs`. -/
def c7dep : Json :=
  .obj [("name", .str "foo"), ("version", .str "1.2.0"),
        ("license", .str "MIT"), ("extra", .num 1)]

/-- C7 (witness): the record-shape characterization at the `c7fs` descriptor. -/
theorem c7_witness :
    c7fs.file (depPath "P" "foo")
      = .ok "\x7b\"name\": \"foo\", \"version\": \"1.2.0\", \"license\": \"MIT\", \"extra\": 1\x7d"
    ∧ parseJson
        "\x7b\"name\": \"foo\", \"version\": \"1.2.0\", \"license\": \"MIT\", \"extra\": 1\x7d"
      = some c7dep
    ∧ ∃ d, loadProjectDependency c7fs "P" "foo" "dependencies" = .ok (some d)
      ∧ ∀ k, getKey d k
          = if k ∈ depFields then getField c7dep k
            else if k = "status" then some (Json.str "idle")
            else if k = "location" then some (Json.str "dependencies") else none :=
  ⟨rfl, rfl, c7_dependency_record_fields c7fs "P" "foo" "dependencies" rfl rfl⟩

/-! ## Claim C8 -/

/-- The property of claim C8 as stated: every successfully read and parsed
object descriptor yields a project record carrying every user-declared field
at its parsed value. -/
def ClaimC8 (fs : FSState) (p : String) : Prop :=
  ∀ kvs, loadPackageJson fs p = .ok (.obj kvs) →
    ∃ props, loadProject fs p = .ok (.objv props)
      ∧ ∀ k, k ≠ "__skpm_manifest" → k ≠ "__skpm_icon" → k ≠ "__skpm_createdAt" →
          getKey props k = (getKey kvs k).map some

/-- A project whose descriptor loads fine but whose manifest file holds
unparseable text. -/
def c8xfs : FSState where
  file := fun q =>
    if q = "A/package.json" then
      .ok "\x7b\"name\": \"a\", \"skpm\": \x7b\"manifest\": \"manifest.json\"\x7d\x7d"
    else if q = "A/manifest.json" then .ok "nope"
    else .err "ENOENT"
  stat := fun _ => .err "ENOENT"
  writeErr := fun _ => none

/-- C8 (counterexample): the descriptor loads successfully, but the manifest
file exists and does not parse, so the manifest promise never settles,
`Promise.all` never resolves and `loadProject` returns no record at all —
the claimed record does not exist. -/
theorem c8_counterexample : ¬ ClaimC8 c8xfs "A" := by
  intro h
  obtain ⟨props, hp, -⟩ := h
    [("name", .str "a"), ("skpm", .obj [("manifest", .str "manifest.json")])] rfl
  have hp' : (POutcome.pending : POutcome JsErr JsValue)
      = POutcome.ok (JsValue.objv props) := hp
  exact POutcome.noConfusion hp'

/-- C8 (amended): on an object descriptor, **when the manifest attempt
settles**, the project record exists and keeps every user-declared field at
exactly its parsed value; the merge writes only the three reserved keys
`__skpm_manifest`, `__skpm_icon` and `__skpm_createdAt`, carrying the
(caught) manifest, icon and stat outcomes.  When the manifest file exists but
does not parse, its promise never settles and `loadProject` never resolves —
no record is produced. -/
theorem c8_loadProject_frame (fs : FSState) (p : String)
    {kvs : List (String × Json)} (h : loadPackageJson fs p = .ok (.obj kvs)) :
    ((loadManifestJson fs p (.obj kvs) ≠ .pending →
      ∃ props, loadProject fs p = .ok (.objv props)
        ∧ (∀ k, k ≠ "__skpm_manifest" → k ≠ "__skpm_icon" → k ≠ "__skpm_createdAt" →
            getKey props k = (getKey kvs k).map some)
        ∧ getKey props "__skpm_manifest"
            = some ((loadManifestJson fs p (.obj kvs)).toOption)
        ∧ getKey props "__skpm_icon" = some (((loadIcon fs p).toOption).map Json.str)
        ∧ getKey props "__skpm_createdAt"
            = some (((loadProjectFSStat fs p).toOption).map Json.num))
      ∧ (loadManifestJson fs p (.obj kvs) = .pending →
          loadProject fs p = .pending)) := by
  constructor
  · intro hm
    refine ⟨_, loadProject_obj h hm, ?_, (record_getProp_reserved _ _ _ _).1,
      (record_getProp_reserved _ _ _ _).2.1, (record_getProp_reserved _ _ _ _).2.2⟩
    intro k hk1 hk2 hk3
    exact record_getProp_user kvs _ _ _ k hk1 hk2 hk3
  · intro hm
    exact loadProject_stall h hm

/-- One project with a two-field object descriptor and nothing else. -/
def c8fs : FSState where
  file := fun q =>
    if q = "A/package.json" then .ok "\x7b\"name\": \"a\", \"x\": 1\x7d" else .err "ENOENT"
  stat := fun _ => .err "ENOENT"
  writeErr := fun _ => none

/-- C8 (witness): the frame property at the `c8fs` project. -/
theorem c8_witness :
    loadPackageJson c8fs "A" = .ok (.obj [("name", Json.str "a"), ("x", Json.num 1)])
    ∧ (((loadManifestJson c8fs "A"
          (.obj [("name", Json.str "a"), ("x", Json.num 1)]) ≠ .pending →
        ∃ props, loadProject c8fs "A" = .ok (.objv props)
          ∧ (∀ k, k ≠ "__skpm_manifest" → k ≠ "__skpm_icon" → k ≠ "__skpm_createdAt" →
              getKey props k
                = (getKey [("name", Json.str "a"), ("x", Json.num 1)] k).map some)
          ∧ getKey props "__skpm_manifest"
              = some ((loadManifestJson c8fs "A"
                  (.obj [("name", Json.str "a"), ("x", Json.num 1)])).toOption)
          ∧ getKey props "__skpm_icon"
              = some (((loadIcon c8fs "A").toOption).map Json.str)
          ∧ getKey props "__skpm_createdAt"
              = some (((loadProjectFSStat c8fs "A").toOption).map Json.num))
      ∧ (loadManifestJson c8fs "A"
            (.obj [("name", Json.str "a"), ("x", Json.num 1)]) = .pending →
          loadProject c8fs "A" = .pending))) :=
  ⟨rfl, c8_loadProject_frame c8fs "A" rfl⟩

/-! ## Claim C9 -/

/-- The position of task `i` in the completion order `σ`. -/
def completionIndex (σ : List Nat) (i : Nat) : Nat :=
  match σ with
  | [] => 0
  | j :: rest => if j = i then 0 else completionIndex rest i + 1

/-- The property of claim C9 as stated: of two successfully loaded records
with the same name, the one completing later in completion order is the one
present in the returned mapping. -/
def ClaimC9 (fs : FSState) (paths : List String) (σ : List Nat) : Prop :=
  ∀ i j pi pj ri rj m,
    paths[i]? = some pi → paths[j]? = some pj →
    loadProjectOpt fs pi = some ri → loadProjectOpt fs pj = some rj →
    recordNameKey ri = recordNameKey rj →
    completionIndex σ i < completionIndex σ j →
    loadProjects fs paths σ = .ok m →
    getKey m (recordNameKey rj) = some rj

/-- Two projects sharing the name `n` but differing in field `v`. -/
def c9fs : FSState where
  file := fun q =>
    if q = "X/package.json" then .ok "\x7b\"name\": \"n\", \"v\": 1\x7d"
    else if q = "Y/package.json" then .ok "\x7b\"name\": \"n\", \"v\": 2\x7d"
    else .err "ENOENT"
  stat := fun _ => .err "ENOENT"
  writeErr := fun _ => none

/-- C9 (counterexample): with schedule `[1, 0]` the path `X` (input index 0)
completes after `Y` (input index 1), so completion-order last-write-wins
predicts `X`'s record; the mapping actually holds `Y`'s record, because
`async/map` delivers results at input indices and the fold runs in input
order. -/
theorem c9_counterexample : ¬ ClaimC9 c9fs ["X", "Y"] [1, 0] := by
  intro h
  have h0 := h 1 0 "Y" "X" _ _ _ rfl rfl rfl rfl rfl (by decide) rfl
  exact absurd h0 (by decide)

/-- C9 (amended): completion order is irrelevant — under every covering
schedule, when every listed project's load settles, the entry at each key is
the *input-order* last successfully loaded record with that name: `async/map`
stores each result at its input index, and the name-keyed fold runs over that
input-order list.  (When some load never settles, `loadProjects` never
settles and no mapping is produced at all.) -/
theorem c9_loadProjects_input_order (fs : FSState) (paths : List String)
    (σ : List Nat) (hσ : σ.Perm (List.range paths.length))
    (hsettle : ∀ p ∈ paths, loadProject fs p ≠ .pending) :
    ∃ m, loadProjects fs paths σ = .ok m
      ∧ ∀ k, getKey m k = (paths.filterMap (loadProjectOpt fs)).reverse.find?
          (fun r => recordNameKey r == k) := by
  have hcov : Covers σ paths.length := fun i hi => hσ.mem_iff.mpr (List.mem_range.mpr hi)
  refine ⟨_, loadProjects_eq fs paths hcov hsettle, ?_⟩
  intro k
  rw [getKey_foldl_upsertBy]
  exact Option.or_none

/-- C9 (witness): the input-order characterization on the `c9fs` pair under
the reversed schedule. -/
theorem c9_witness :
    List.Perm [1, 0] (List.range (["X", "Y"] : List String).length)
    ∧ (∀ p ∈ (["X", "Y"] : List String), loadProject c9fs p ≠ .pending)
    ∧ ∃ m, loadProjects c9fs ["X", "Y"] [1, 0] = .ok m
      ∧ ∀ k, getKey m k
          = ((["X", "Y"] : List String).filterMap (loadProjectOpt c9fs)).reverse.find?
              (fun r => recordNameKey r == k) :=
  ⟨by decide, by decide,
    c9_loadProjects_input_order c9fs ["X", "Y"] [1, 0] (by decide) (by decide)⟩

/-! ## Claim C10 -/

/-- C10: when the descriptor read succeeds but the dependency batch rejects,
`loadAllProjectDependencies` never settles — the inner `.then` installs no
rejection handler and its executor's `resolve` is never called on that path,
so the promise neither resolves nor rejects. -/
theorem c10_batch_error_never_settles (fs : FSState) (p : String) (σ : List Nat)
    {pkg : Json} (hpkg : loadPackageJson fs p = .ok pkg) {e : JsErr}
    (herr : loadProjectDependencies fs p (queueOf pkg) σ = .rejected e) :
    loadAllProjectDependencies fs p σ = .pending := by
  have hnull : pkg ≠ Json.null := by
    intro hn
    subst hn
    rw [show queueOf Json.null = ([] : List (String × String)) from rfl,
      loadProjectDependencies_nil fs p σ] at herr
    exact POutcome.noConfusion herr
  exact loadAllProjectDependencies_pending hpkg hnull herr

/-- A project whose single declared dependency's descriptor is unreadable. -/
def c10fs : FSState where
  file := fun q =>
    if q = "P/package.json" then .ok "\x7b\"dependencies\": \x7b\"locked\": \"1\"\x7d\x7d"
    else .err "EACCES"
  stat := fun _ => .err "ENOENT"
  writeErr := fun _ => none

/-- The parsed descriptor of the `c10fs` project. -/
def c10pkg : Json := .obj [("dependencies", .obj [("locked", .str "1")])]

/-- C10 (witness): a permission error on the installed descriptor leaves
`loadAllProjectDependencies` forever pending. -/
theorem c10_witness :
    loadPackageJson c10fs "P" = .ok c10pkg
    ∧ loadProjectDependencies c10fs "P" (queueOf c10pkg) [0]
        = .rejected (JsErr.io "EACCES")
    ∧ loadAllProjectDependencies c10fs "P" [0] = .pending :=
  ⟨rfl, rfl, c10_batch_error_never_settles c10fs "P" [0] rfl rfl⟩

end Guppy
